import Mathlib

/-!
ghtl: a GitHub timeline printer.

A shallow embedding of `main.go` of `5n7/ghtl` together with the pieces of the Go
standard library that decide its behaviour (`strings.ReplaceAll`, `time.Time.After`,
`time.Time.Format`, `fmt` width padding and `sort.Slice`).

Conventions of the embedding:

* a Go `string` is a Lean `String`; the only bytes the program inspects are the ASCII
  bytes of `"\n"` and `" "`, which are single characters in UTF-8;
* a Go pointer that may be `nil` is an `Option`;
* a Go function that may return an error or panic returns an `Outcome`;
* Go `int` values are `Int` or `Nat`; every index the program computes is bounded by
  the length of a slice of at most a few hundred elements, far from the 64-bit range.
-/

namespace Ghtl

/-! ## strings.ReplaceAll -/

/-- Test whether `old` occurs at the head of `s` (the comparison `strings.Index`
performs at each candidate position). -/
def hasHead : List Char → List Char → Bool
  | _, [] => true
  | [], _ :: _ => false
  | c :: s, o :: old => c == o && hasHead s old

/-- Model of `strings.Index(s, old)`: the offset of the first occurrence of `old` in `s`,
or `none` where Go returns `-1`. -/
def index : List Char → List Char → Option Nat
  | [], old => if hasHead [] old then some 0 else none
  | c :: s, old =>
    if hasHead (c :: s) old then some 0
    else (index s old).map (· + 1)

/-- Model of `strings.Count(s, old)` for a non-empty `old`: the number of non-overlapping
occurrences, found by repeated `Index`; `fuel` bounds the number of searches. -/
def countFrom (old : List Char) : Nat → List Char → Nat
  | 0, _ => 0
  | fuel + 1, s =>
    match index s old with
    | none => 0
    | some j => 1 + countFrom old fuel (s.drop (j + old.length))

/-- Model of `strings.Count(s, old)`; for an empty `old` Go returns the number of runes
plus one. -/
def count (s old : List Char) : Nat :=
  if old.isEmpty then s.length + 1 else countFrom old s.length s

/-- The replacement loop of `strings.Replace` for a non-empty `old`: `n` times, copy the
text up to the next occurrence of `old`, then `new`, and continue after the occurrence;
finally copy the rest. -/
def replaceLoop (old new : List Char) : Nat → List Char → List Char
  | 0, s => s
  | n + 1, s =>
    match index s old with
    | none => s
    | some j => s.take j ++ new ++ replaceLoop old new n (s.drop (j + old.length))

/-- The replacement loop of `strings.Replace` for an empty `old`: `new` is inserted
before the first rune and after each of the next `n - 1` runes. -/
def replaceEmpty (new : List Char) : Nat → List Char → List Char
  | 0, s => s
  | 1, s => new ++ s
  | _ + 2, [] => new
  | n + 2, c :: s => new ++ c :: replaceEmpty new (n + 1) s

/-- Model of `strings.ReplaceAll(s, old, new)`, that is `strings.Replace(s, old, new, -1)`. -/
def replaceAll (s old new : List Char) : List Char :=
  if old = new then s
  else
    let m := count s old
    if m = 0 then s
    else if old.isEmpty then replaceEmpty new m s
    else replaceLoop old new m s

/-- Source `flattenString`: `strings.ReplaceAll(s, "\n", " ")`. -/
def flattenString (s : String) : String :=
  ⟨replaceAll s.data ['\n'] [' ']⟩

/-- The character-wise description of flattening: a newline becomes a space, any other
character is kept. -/
def flattenChar (c : Char) : Char := if c = '\n' then ' ' else c

/-! ## time.Time -/

/-- Model of a `time.Time` without monotonic clock reading, as produced by decoding an
RFC 3339 timestamp: the instant (`sec` seconds since the Unix epoch and `nsec`
nanoseconds) and the offset east of UTC, in seconds, of its location. -/
structure Time where
  sec : Int
  nsec : Nat
  offset : Int
deriving DecidableEq, Inhabited

/-- Model of `time.Time.After`: `t` is a later instant than `u`. -/
def Time.After (t u : Time) : Bool :=
  decide (t.sec > u.sec) || (decide (t.sec = u.sec) && decide (t.nsec > u.nsec))

def secondsPerDay : Nat := 86400

def daysPer400Years : Nat := 365 * 400 + 97

def daysPer100Years : Nat := 365 * 100 + 24

def daysPer4Years : Nat := 365 * 4 + 1

def absoluteZeroYear : Int := -292277022399

def unixToInternal : Int := (1969 * 365 + 1969 / 4 - 1969 / 100 + 1969 / 400) * 86400

def internalToAbsolute : Int := 9223371966579724800

/-- Model of `time.Time.abs`: seconds since the absolute zero year, in the time's
location, as a `uint64`. -/
def Time.abs (t : Time) : Nat :=
  ((t.sec + t.offset + (unixToInternal + internalToAbsolute)) % (2 ^ 64 : Int)).toNat

/-- Go's table `daysBefore`: days in a non-leap year before each month. -/
def daysBefore : List Nat := [0, 31, 59, 90, 120, 151, 181, 212, 243, 273, 304, 334, 365]

/-- Model of `time.isLeap`. -/
def isLeap (year : Int) : Bool :=
  decide (year % 4 = 0) && (decide (year % 100 ≠ 0) || decide (year % 400 = 0))

/-- First half of `time.absDate`: the year and the zero-based day of the year. -/
def absYearDay (abs : Nat) : Int × Nat :=
  let d := abs / secondsPerDay
  let n := d / daysPer400Years
  let y := 400 * n
  let d := d - daysPer400Years * n
  let n := d / daysPer100Years
  let n := n - n / 4
  let y := y + 100 * n
  let d := d - daysPer100Years * n
  let n := d / daysPer4Years
  let y := y + 4 * n
  let d := d - daysPer4Years * n
  let n := d / 365
  let n := n - n / 4
  let y := y + n
  let d := d - 365 * n
  ((y : Int) + absoluteZeroYear, d)

/-- Second half of `time.absDate`: month (1 to 12) and day of the month from the
zero-based day of the year. -/
def monthDay (leap : Bool) (yday : Nat) : Nat × Nat :=
  if leap && decide (yday = 31 + 29 - 1) then (2, 29)
  else
    let day := if leap && decide (yday > 31 + 29 - 1) then yday - 1 else yday
    let month := day / 31
    let stop := daysBefore.getD (month + 1) 0
    if day ≥ stop then (month + 1 + 1, day - stop + 1)
    else (month + 1, day - daysBefore.getD month 0 + 1)

/-- Model of `time.absDate(abs, true)`: year, month and day. -/
def absDate (abs : Nat) : Int × Nat × Nat :=
  let yd := absYearDay abs
  (yd.1, monthDay (isLeap yd.1) yd.2)

/-- Model of `time.absClock`: hour, minute and second of the day. -/
def absClock (abs : Nat) : Nat × Nat × Nat :=
  let sec := abs % secondsPerDay
  let hour := sec / 3600
  let sec := sec - hour * 3600
  let min := sec / 60
  let sec := sec - min * 60
  (hour, min, sec)

/-- The decimal digit character of a number below ten. -/
def digitChar (n : Nat) : Char := Char.ofNat (48 + n)

/-- The digit loop shared by `time.appendInt` and `fmt`: the decimal digits of `u`,
assembled from the least significant one; `fuel` is the size of Go's digit buffer. -/
def decimalAux : Nat → Nat → List Char → List Char
  | 0, _, acc => acc
  | fuel + 1, u, acc =>
    if u ≥ 10 then decimalAux fuel (u / 10) (digitChar (u % 10) :: acc)
    else digitChar u :: acc

/-- The decimal digits of `u` (Go uses a 20 byte buffer, enough for any `uint64`). -/
def decimal (u : Nat) : List Char := decimalAux 20 u []

/-- Model of `time.appendInt(b, x, width)`: sign, zero padding to `width` digits,
digits. -/
def appendInt (x : Int) (width : Nat) : List Char :=
  (if x < 0 then ['-'] else []) ++
    List.replicate (width - (decimal x.natAbs).length) '0' ++ decimal x.natAbs

/-- Model of `t.Format("2006-01-02 15:04:05")`: the layout elements are the four digit
year, zero-padded month and day, and zero-padded hour, minute and second. -/
def Time.Format (t : Time) : String :=
  let date := absDate t.abs
  let clock := absClock t.abs
  ⟨appendInt date.1 4 ++ ['-'] ++ appendInt date.2.1 2 ++ ['-'] ++ appendInt date.2.2 2 ++
    [' '] ++ appendInt clock.1 2 ++ [':'] ++ appendInt clock.2.1 2 ++ [':'] ++
    appendInt clock.2.2 2⟩

/-! ## fmt and colour -/

/-- Model of the verb `%2d` (in general `%<width>d`) of `fmt`: sign and decimal digits,
padded on the left with spaces up to `width` characters. -/
def fmtD (width : Nat) (n : Int) : List Char :=
  let body := (if n < 0 then ['-'] else []) ++ decimal n.natAbs
  List.replicate (width - body.length) ' ' ++ body

/-- A string produced by one of the `color.XxxString` helpers: the text and the SGR
attribute it is wrapped in. -/
structure Styled where
  attr : Nat
  text : String
deriving DecidableEq, Inhabited

def FgYellow : Nat := 33

def FgMagenta : Nat := 35

def FgCyan : Nat := 36

/-- The bytes of a styled string: the text between the escape sequences setting and
resetting the attribute, or the bare text when colour output is disabled. -/
def Styled.render (noColor : Bool) (s : Styled) : String :=
  if noColor then s.text
  else ⟨['\x1b', '['] ++ decimal s.attr ++ ['m'] ++ s.text.data ++ ['\x1b', '[', '0', 'm']⟩

/-! ## Events -/

/-- Source `eventType`. -/
inductive eventType where
  | eventCommit
  | eventIssue
  | eventPullRequest
deriving DecidableEq, Inhabited

/-- Source `event`. -/
structure event where
  createdAt : Time
  eventType : eventType
  message : String
  number : Int
deriving DecidableEq, Inhabited

/-- A Go `error` value. -/
structure GoError where
  msg : String
deriving DecidableEq, Inhabited

/-- How a Go function call ends: it returns its value with a nil error, returns a
non-nil error, or panics. -/
inductive Outcome (α : Type) where
  | ok (a : α)
  | error (e : GoError)
  | panic
deriving DecidableEq

/-- Dereference of a Go pointer: a nil pointer panics. -/
def deref {α : Type} : Option α → Outcome α
  | some a => .ok a
  | none => .panic

/-- Sequencing of Go statements: the rest runs only after a normal return. -/
def Outcome.bind {α β : Type} : Outcome α → (α → Outcome β) → Outcome β
  | .ok a, f => f a
  | .error e, _ => .error e
  | .panic, _ => .panic

/-! ## The GitHub API types (go-github), restricted to the fields the program reads -/

structure CommitAuthor where
  Date : Option Time
deriving DecidableEq, Inhabited

structure Commit where
  Author : Option CommitAuthor
  Message : Option String
deriving DecidableEq, Inhabited

structure RepositoryCommit where
  Commit : Option Commit
deriving DecidableEq, Inhabited

structure PullRequestLinks where
  URL : Option String
deriving DecidableEq, Inhabited

structure Issue where
  Number : Option Int
  Title : Option String
  CreatedAt : Option Time
  PullRequestLinks : Option PullRequestLinks
deriving DecidableEq, Inhabited

/-- Model of `github.Issue.IsPullRequest`. -/
def Issue.IsPullRequest (i : Issue) : Bool := i.PullRequestLinks.isSome

/-- The answer of a list endpoint: an error, or a slice of pointers to items. -/
abbrev Response (α : Type) := Except GoError (List (Option α))

/-! ## The fetchers -/

/-- The event `getCommitEvents` builds for one commit; a nil pointer on the way to the
author date or the message panics. -/
def commitEvent (commit : Option RepositoryCommit) : Outcome event :=
  (deref commit).bind fun rc =>
  (deref rc.Commit).bind fun c =>
  (deref c.Author).bind fun author =>
  (deref author.Date).bind fun date =>
  (deref c.Message).bind fun message =>
  .ok { createdAt := date, eventType := .eventCommit, message := flattenString message,
        number := 0 }

/-- The loop of `getCommitEvents`: append one event per commit. -/
def commitLoop : List (Option RepositoryCommit) → List event → Outcome (List event)
  | [], events => .ok events
  | commit :: rest, events =>
    (commitEvent commit).bind fun e => commitLoop rest (events ++ [e])

/-- Source `getCommitEvents`, as a function of the answer of `Repositories.ListCommits`. -/
def getCommitEvents (resp : Response RepositoryCommit) : Outcome (List event) :=
  match resp with
  | .error err => .error err
  | .ok commits => commitLoop commits []

/-- The event `getIssueEvents` builds for one item of the issues endpoint. -/
def issueEvent (issue : Option Issue) : Outcome event :=
  (deref issue).bind fun i =>
  let eventType := if i.IsPullRequest then eventType.eventPullRequest else eventType.eventIssue
  (deref i.CreatedAt).bind fun createdAt =>
  (deref i.Title).bind fun title =>
  (deref i.Number).bind fun number =>
  .ok { createdAt := createdAt, eventType := eventType, message := title, number := number }

/-- The loop of `getIssueEvents`: append one event per item. -/
def issueLoop : List (Option Issue) → List event → Outcome (List event)
  | [], events => .ok events
  | issue :: rest, events =>
    (issueEvent issue).bind fun e => issueLoop rest (events ++ [e])

/-- Source `getIssueEvents`, as a function of the answer of `Issues.ListByRepo`. -/
def getIssueEvents (resp : Response Issue) : Outcome (List event) :=
  match resp with
  | .error err => .error err
  | .ok issues => issueLoop issues []

/-! ## Rendering -/

/-- The text of a commit line: `Sprintf("    %s %s", ...)`. -/
def commitText (e : event) : String :=
  ⟨"    ".data ++ e.createdAt.Format.data ++ [' '] ++ e.message.data⟩

/-- The text of an issue or pull request line: `Sprintf("#%2d %s %s", ...)`. -/
def issueText (e : event) : String :=
  ⟨['#'] ++ fmtD 2 e.number ++ [' '] ++ e.createdAt.Format.data ++ [' '] ++ e.message.data⟩

/-- Source `printEvent`: the styled string handed to `fmt.Println`. -/
def printEvent (e : event) : Styled :=
  match e.eventType with
  | .eventCommit => { attr := FgYellow, text := commitText e }
  | .eventIssue => { attr := FgMagenta, text := issueText e }
  | .eventPullRequest => { attr := FgCyan, text := issueText e }

section SliceModel1

variable {α : Type} [Inhabited α]

/-! ## sort.Slice

The unstable sort behind `sort.Slice` (Go 1.14, the toolchain contemporary with the
go-github release the program imports): quicksort with a median pivot, falling back to
heapsort at depth `maxDepth`, and finishing ranges of at most 12 elements with one Shell
pass of gap 6 and an insertion sort. Loops are written as recursions on a counter that
is an upper bound of the number of iterations the Go loop can make. -/

/-- The slice element `data[i]`. -/
def elem (data : List α) (i : Nat) : α := data.getD i default

/-- Method `lessSwap.Less`: the user's `less` on the current contents of the slice. -/
def Less (less : α → α → Bool) (data : List α) (i j : Nat) : Bool :=
  less (elem data i) (elem data j)

/-- Method `lessSwap.Swap`: exchange `data[i]` and `data[j]`. -/
def Swap (data : List α) (i j : Nat) : List α :=
  if i < data.length ∧ j < data.length then
    (data.set i (elem data j)).set j (elem data i)
  else data

/-- Inner loop of `insertionSort_func`:
`for j := i; j > a && data.Less(j, j-1); j-- { data.Swap(j, j-1) }`. -/
def insertionInner (less : α → α → Bool) (a : Nat) : Nat → List α → List α
  | 0, data => data
  | j + 1, data =>
    if j + 1 > a ∧ Less less data (j + 1) j then
      insertionInner less a j (Swap data (j + 1) j)
    else data

/-- Outer loop of `insertionSort_func`: `for i := a + 1; i < b; i++`. -/
def insertionOuter (less : α → α → Bool) (a b : Nat) : Nat → Nat → List α → List α
  | 0, _, data => data
  | n + 1, i, data =>
    if i < b then insertionOuter less a b n (i + 1) (insertionInner less a i data)
    else data

/-- Go `insertionSort_func(data, a, b)`. -/
def insertionSort_func (less : α → α → Bool) (data : List α) (a b : Nat) : List α :=
  insertionOuter less a b (b - (a + 1)) (a + 1) data

/-- Go `siftDown_func(data, lo, hi, first)`, started at `root`. -/
def siftDown_func (less : α → α → Bool) (hi first : Nat) : Nat → Nat → List α → List α
  | 0, _, data => data
  | n + 1, root, data =>
    let child := 2 * root + 1
    if child ≥ hi then data
    else
      let child :=
        if child + 1 < hi ∧ Less less data (first + child) (first + child + 1) then child + 1
        else child
      if !Less less data (first + root) (first + child) then data
      else siftDown_func less hi first n child (Swap data (first + root) (first + child))

/-- First loop of `heapSort_func`: `siftDown_func(data, i, hi, first)` for
`i = k - 1, ..., 0`. -/
def heapBuild (less : α → α → Bool) (hi first : Nat) : Nat → List α → List α
  | 0, data => data
  | k + 1, data => heapBuild less hi first k (siftDown_func less hi first hi k data)

/-- Second loop of `heapSort_func`: for `i = k - 1, ..., 0`, swap the maximum to the end
of the range and restore the heap below it. -/
def heapPop (less : α → α → Bool) (first : Nat) : Nat → List α → List α
  | 0, data => data
  | k + 1, data =>
    heapPop less first k (siftDown_func less k first k 0 (Swap data first (first + k)))

/-- Go `heapSort_func(data, a, b)`. -/
def heapSort_func (less : α → α → Bool) (data : List α) (a b : Nat) : List α :=
  let first := a
  let hi := b - a
  heapPop less first hi (heapBuild less hi first ((hi - 1) / 2 + 1) data)

/-- Go `medianOfThree_func(data, m1, m0, m2)`. -/
def medianOfThree_func (less : α → α → Bool) (data : List α) (m1 m0 m2 : Nat) : List α :=
  let data := if Less less data m1 m0 then Swap data m1 m0 else data
  if Less less data m2 m1 then
    let data := Swap data m2 m1
    if Less less data m1 m0 then Swap data m1 m0 else data
  else data

/-- An upward scan `for ; i < c && p(i); i++ {}`. -/
def scanUp (p : Nat → Bool) (c : Nat) : Nat → Nat → Nat
  | 0, i => i
  | n + 1, i => if i < c ∧ p i then scanUp p c n (i + 1) else i

/-- A downward scan `for ; b < c && p(c-1); c-- {}`. -/
def scanDown (p : Nat → Bool) (b : Nat) : Nat → Nat → Nat
  | 0, c => c
  | n + 1, c => if b < c ∧ p (c - 1) then scanDown p b n (c - 1) else c

/-- The main partitioning loop of `doPivot_func`. -/
def partitionLoop (less : α → α → Bool) (pivot : Nat) :
    Nat → List α → Nat → Nat → List α × Nat × Nat
  | 0, data, b, c => (data, b, c)
  | n + 1, data, b, c =>
    let b := scanUp (fun i => !Less less data pivot i) c (c - b) b
    let c := scanDown (fun i => Less less data pivot i) b (c - b) c
    if b ≥ c then (data, b, c)
    else partitionLoop less pivot n (Swap data b (c - 1)) (b + 1) (c - 1)

/-- The loop of `doPivot_func` that protects against many duplicates. -/
def protectLoop (less : α → α → Bool) (pivot : Nat) :
    Nat → List α → Nat → Nat → List α × Nat × Nat
  | 0, data, a, b => (data, a, b)
  | n + 1, data, a, b =>
    let b := scanDown (fun i => !Less less data i pivot) a (b - a) b
    let a := scanUp (fun i => Less less data i pivot) b (b - a) a
    if a ≥ b then (data, a, b)
    else protectLoop less pivot n (Swap data a (b - 1)) (a + 1) (b - 1)

/-- The three equality probes of `doPivot_func`; returns the slice, `b`, `c` and the
new value of `protect`. -/
def dupsProbe (less : α → α → Bool) (data : List α) (pivot m hi b c : Nat) :
    List α × Nat × Nat × Bool :=
  let r1 : List α × Nat × Nat :=
    if !Less less data pivot (hi - 1) then (Swap data c (hi - 1), c + 1, 1) else (data, c, 0)
  let data := r1.1
  let c := r1.2.1
  let dups := r1.2.2
  let r2 : Nat × Nat := if !Less less data (b - 1) pivot then (b - 1, dups + 1) else (b, dups)
  let b := r2.1
  let dups := r2.2
  let r3 : List α × Nat × Nat :=
    if !Less less data m pivot then (Swap data m (b - 1), b - 1, dups + 1) else (data, b, dups)
  (r3.1, r3.2.1, c, decide (r3.2.2 > 1))

/-- Go `doPivot_func(data, lo, hi)`: returns the slice and `(midlo, midhi)`. -/
def doPivot_func (less : α → α → Bool) (data : List α) (lo hi : Nat) : List α × Nat × Nat :=
  let m := (lo + hi) / 2
  let data :=
    if hi - lo > 40 then
      let s := (hi - lo) / 8
      let data := medianOfThree_func less data lo (lo + s) (lo + 2 * s)
      let data := medianOfThree_func less data m (m - s) (m + s)
      medianOfThree_func less data (hi - 1) (hi - 1 - s) (hi - 1 - 2 * s)
    else data
  let data := medianOfThree_func less data lo m (hi - 1)
  let pivot := lo
  let a := lo + 1
  let c := hi - 1
  let a := scanUp (fun i => Less less data i pivot) c (c - a) a
  let b := a
  let r := partitionLoop less pivot (c - b) data b c
  let data := r.1
  let b := r.2.1
  let c := r.2.2
  let protect := decide (hi - c < 5)
  let r : List α × Nat × Nat × Bool :=
    if !protect ∧ hi - c < (hi - lo) / 4 then dupsProbe less data pivot m hi b c
    else (data, b, c, protect)
  let data := r.1
  let b := r.2.1
  let c := r.2.2.1
  let protect := r.2.2.2
  let r : List α × Nat × Nat :=
    if protect then protectLoop less pivot (b - a) data a b else (data, a, b)
  let data := r.1
  let b := r.2.2
  (Swap data pivot (b - 1), b - 1, c)

/-- The Shell pass of `quickSort_func`:
`for i := a + 6; i < b; i++ { if data.Less(i, i-6) { data.Swap(i, i-6) } }`. -/
def shellPass (less : α → α → Bool) (b : Nat) : Nat → Nat → List α → List α
  | 0, _, data => data
  | n + 1, i, data =>
    if i < b then
      shellPass less b n (i + 1) (if Less less data i (i - 6) then Swap data i (i - 6) else data)
    else data

/-- The tail of `quickSort_func`, run once the range has at most 12 elements. -/
def smallSort (less : α → α → Bool) (data : List α) (a b : Nat) : List α :=
  if b - a > 1 then
    insertionSort_func less (shellPass less b (b - (a + 6)) (a + 6) data) a b
  else data

/-- Go `quickSort_func(data, a, b, maxDepth)`. One round of the Go loop recurses on the
smaller part and continues with the larger one; `fuel` bounds the size of the range. -/
def quickSort_func (less : α → α → Bool) : Nat → List α → Nat → Nat → Nat → List α
  | 0, data, a, b, _ => smallSort less data a b
  | fuel + 1, data, a, b, maxDepth =>
    if b - a > 12 then
      if maxDepth = 0 then heapSort_func less data a b
      else
        let maxDepth := maxDepth - 1
        let r := doPivot_func less data a b
        let data := r.1
        let mlo := r.2.1
        let mhi := r.2.2
        if mlo - a < b - mhi then
          let data := quickSort_func less fuel data a mlo maxDepth
          quickSort_func less fuel data mhi b maxDepth
        else
          let data := quickSort_func less fuel data mhi b maxDepth
          quickSort_func less fuel data a mlo maxDepth
    else smallSort less data a b

/-- The loop of Go `maxDepth`: the number of bits of `i`. -/
def bitCount : Nat → Nat → Nat
  | 0, _ => 0
  | fuel + 1, i => if i > 0 then bitCount fuel (i / 2) + 1 else 0

/-- Go `maxDepth(n)`: twice the number of bits of `n`. -/
def maxDepth (n : Nat) : Nat := bitCount n n * 2

/-- Go `sort.Slice(slice, less)` where `less(i, j)` is `less slice[i] slice[j]`. -/
def sortSlice (less : α → α → Bool) (data : List α) : List α :=
  quickSort_func less data.length data 0 data.length (maxDepth data.length)

end SliceModel1

/-! ## run -/

/-- The comparison closure of `run`:
`!events[i].createdAt.After(events[j].createdAt)`. -/
def lessCreatedAt (x y : event) : Bool := !x.createdAt.After y.createdAt

/-- The observable steps of `run`: the two API calls and each printed line. -/
inductive Effect where
  | listCommits
  | listIssues
  | println (line : Styled)
deriving DecidableEq

/-- The two answers the GitHub API gives to one run. -/
structure Api where
  commits : Response RepositoryCommit
  issues : Response Issue

/-- The end of a run: the steps it performed, in order, and how it returned. -/
structure RunResult where
  trace : List Effect
  result : Outcome Unit

/-- The value of `events` after `sort.Slice` in `run`, for the two fetched lists. -/
def timeline (commits issues : List event) : List event :=
  sortSlice lessCreatedAt (([] ++ commits) ++ issues)

/-- Source `run`. -/
def run (api : Api) : RunResult :=
  match getCommitEvents api.commits with
  | .error err => ⟨[.listCommits], .error err⟩
  | .panic => ⟨[.listCommits], .panic⟩
  | .ok commits =>
    match getIssueEvents api.issues with
    | .error err => ⟨[.listCommits, .listIssues], .error err⟩
    | .panic => ⟨[.listCommits, .listIssues], .panic⟩
    | .ok issues =>
      ⟨[.listCommits, .listIssues] ++
        (timeline commits issues).map (fun e => .println (printEvent e)), .ok ()⟩

/-! ## Auxiliary definitions for the statements -/

/-- The author date and the message of a commit, when each pointer on the way is set. -/
def commitParts (commit : Option RepositoryCommit) : Option (Time × String) :=
  match commit with
  | some rc =>
    match rc.Commit with
    | some c =>
      match c.Author, c.Message with
      | some author, some message =>
        match author.Date with
        | some date => some (date, message)
        | none => none
      | _, _ => none
    | none => none
  | none => none

/-- The creation time, title and number of an item, when each pointer is set. -/
def issueParts (issue : Option Issue) : Option (Issue × Time × String × Int) :=
  match issue with
  | some i =>
    match i.CreatedAt, i.Title, i.Number with
    | some createdAt, some title, some number => some (i, createdAt, title, number)
    | _, _, _ => none
  | none => none

/-- The kind `getIssueEvents` is specified to give an item. -/
def issueKind (i : Issue) : eventType :=
  if i.IsPullRequest then .eventPullRequest else .eventIssue

/-- An item of the issues endpoint that is a pull request. -/
def prItem : Issue :=
  ⟨some 7, some "a pull request", some ⟨1704153600, 0, 0⟩, some ⟨none⟩⟩

/-- An item of the issues endpoint that is a plain issue. -/
def plainItem : Issue := ⟨some 5, some "add feature", some ⟨1704153600, 0, 0⟩, none⟩

/-- A commit whose author date is missing. -/
def undatedCommit : Option RepositoryCommit :=
  some ⟨some ⟨some ⟨none⟩, some "fix"⟩⟩

/-- An item whose title is missing. -/
def untitledItem : Option Issue :=
  some ⟨some 5, none, some ⟨1704153600, 0, 0⟩, none⟩

/-- An item whose title spans two lines. -/
def twoLineItem : Option Issue :=
  some ⟨some 5, some "add\nfeature", some ⟨1704153600, 0, 0⟩, none⟩

/-- The event `getIssueEvents` builds for `twoLineItem`. -/
def twoLineEvent : event :=
  ⟨⟨1704153600, 0, 0⟩, .eventIssue, "add\nfeature", 5⟩

/-- The two digit rendering of a number below one hundred. -/
def twoDigits (n : Nat) : List Char := [digitChar (n / 10), digitChar (n % 10)]

/-- The four digit rendering of a number below ten thousand. -/
def fourDigits (n : Nat) : List Char :=
  [digitChar (n / 1000), digitChar (n / 100 % 10), digitChar (n / 10 % 10), digitChar (n % 10)]

/-- A commit pushed on 2024-01-01 at 10:00:00 UTC. -/
def sampleCommit : event :=
  ⟨⟨1704103200, 0, 0⟩, .eventCommit, flattenString "fix\nbug", 0⟩

/-- Issue number 5, opened on 2024-01-02 at 00:00:00 UTC. -/
def sampleIssue : event :=
  ⟨⟨1704153600, 0, 0⟩, .eventIssue, "add feature", 5⟩

/-- A network failure of an API call. -/
def netError : GoError := ⟨"dial tcp: connection refused"⟩

/-- A well-formed answer of the commits endpoint. -/
def oneCommit : Response RepositoryCommit :=
  .ok [some ⟨some ⟨some ⟨some ⟨1704103200, 0, 0⟩⟩, some "fix\nbug"⟩⟩]

section SliceModel2

variable {α : Type} [Inhabited α]

/-- The slice `d2` arises from `d1` by rearranging the elements at the indices from `a`
up to `b`, leaving every other index alone. -/
def Within (a b : Nat) (d1 d2 : List α) : Prop :=
  d2.length = d1.length ∧
  (∀ k, (k < a ∨ b ≤ k) → elem d2 k = elem d1 k) ∧
  (∀ k, a ≤ k → k < b → ∃ k', a ≤ k' ∧ k' < b ∧ elem d2 k = elem d1 k')

/-- The slice is in order at the indices from `a` up to `b`. -/
def SortedOn (less : α → α → Bool) (d : List α) (a b : Nat) : Prop :=
  ∀ i j, a ≤ i → i < j → j < b → less (elem d i) (elem d j) = true

/-- Every node from `lo` on is at least as large as its children below `hi`. -/
def HeapFrom (less : α → α → Bool) (first lo hi : Nat) (d : List α) : Prop :=
  ∀ r c, lo ≤ r → c < hi → (c = 2 * r + 1 ∨ c = 2 * r + 2) →
    less (elem d (first + c)) (elem d (first + r)) = true

/-- The heap property from `lo` on, except that `root` may be smaller than its children;
the children of `root` are bounded by the parent of `root`. -/
def HeapExcept (less : α → α → Bool) (first lo hi root : Nat) (d : List α) : Prop :=
  (∀ r c, lo ≤ r → r ≠ root → c < hi → (c = 2 * r + 1 ∨ c = 2 * r + 2) →
    less (elem d (first + c)) (elem d (first + r)) = true) ∧
  (∀ g c, lo ≤ g → (root = 2 * g + 1 ∨ root = 2 * g + 2) → c < hi →
    (c = 2 * root + 1 ∨ c = 2 * root + 2) →
    less (elem d (first + c)) (elem d (first + g)) = true)

end SliceModel2

/-- A well-formed answer of the issues endpoint. -/
def oneIssue : Response Issue :=
  .ok [some ⟨some 5, some "add feature", some ⟨1704153600, 0, 0⟩, none⟩]

/-- The events `getCommitEvents` returns for `oneCommit`. -/
def sampleCommitList : List event := [sampleCommit]

/-- The events `getIssueEvents` returns for `oneIssue`. -/
def sampleIssueList : List event := [sampleIssue]

/-- A commit authored at the instant `sampleIssue` was opened. -/
def tieCommit : event :=
  ⟨⟨1704153600, 0, 0⟩, .eventCommit, "fix bug", 0⟩

/-- The API answers that yield `tieCommit` and `sampleIssue`. -/
def tieApi : Api :=
  ⟨.ok [some ⟨some ⟨some ⟨some ⟨1704153600, 0, 0⟩⟩, some "fix bug"⟩⟩], oneIssue⟩

/-! # Theorems -/

/-! ### Facts about flattening -/

theorem index_newline_cons (c : Char) (s : List Char) :
    index (c :: s) ['\n'] = if c = '\n' then some 0 else (index s ['\n']).map (· + 1) := by
  by_cases h : c = '\n' <;> simp [index, hasHead, h]

theorem index_newline_nil : index [] ['\n'] = none := by
  simp [index, hasHead]

theorem index_newline_none (s : List Char) (h : index s ['\n'] = none) :
    s.count '\n' = 0 := by
  induction s with
  | nil => simp
  | cons c s ih =>
    rw [index_newline_cons] at h
    by_cases hc : c = '\n'
    · simp [hc] at h
    · simp only [hc, if_false, Option.map_eq_none'] at h
      rw [List.count_cons, ih h]
      simp [hc]

theorem index_newline_some (s : List Char) (j : Nat) (h : index s ['\n'] = some j) :
    j < s.length ∧ s.count '\n' = 1 + (s.drop (j + 1)).count '\n' := by
  induction s generalizing j with
  | nil => simp [index_newline_nil] at h
  | cons c s ih =>
    rw [index_newline_cons] at h
    by_cases hc : c = '\n'
    · simp only [hc, if_true, Option.some.injEq] at h
      subst h
      simp [hc, List.count_cons]
      omega
    · simp only [hc, if_false, Option.map_eq_some'] at h
      obtain ⟨k, hk, rfl⟩ := h
      obtain ⟨h1, h2⟩ := ih k hk
      refine ⟨by simp; omega, ?_⟩
      rw [List.count_cons, h2]
      simp [hc]

theorem countFrom_newline (fuel : Nat) (s : List Char) (h : s.length ≤ fuel) :
    countFrom ['\n'] fuel s = s.count '\n' := by
  induction fuel generalizing s with
  | zero =>
    have : s = [] := List.length_eq_zero.mp (by omega)
    subst this
    simp [countFrom]
  | succ fuel ih =>
    unfold countFrom
    cases hi : index s ['\n'] with
    | none => simp [index_newline_none s hi]
    | some j =>
      obtain ⟨h1, h2⟩ := index_newline_some s j hi
      simp only [List.length_singleton]
      rw [ih _ (by simp; omega), h2]

theorem replaceLoop_newline_cons (n : Nat) (c : Char) (s : List Char) :
    replaceLoop ['\n'] [' '] (n + 1) (c :: s) =
      if c = '\n' then ' ' :: replaceLoop ['\n'] [' '] n s
      else c :: replaceLoop ['\n'] [' '] (n + 1) s := by
  by_cases hc : c = '\n'
  · simp [replaceLoop, index_newline_cons, hc]
  · simp only [replaceLoop, index_newline_cons, hc, if_false]
    cases index s ['\n'] <;> simp

theorem replaceLoop_newline (n : Nat) (s : List Char) (h : s.count '\n' ≤ n) :
    replaceLoop ['\n'] [' '] n s = s.map flattenChar := by
  induction s generalizing n with
  | nil =>
    cases n with
    | zero => simp [replaceLoop]
    | succ n => simp [replaceLoop, index_newline_nil]
  | cons c s ih =>
    by_cases hc : c = '\n'
    · cases n with
      | zero => simp [hc] at h
      | succ n =>
        rw [replaceLoop_newline_cons, if_pos hc, ih n (by simp [hc] at h; omega)]
        simp [flattenChar, hc]
    · have hs : s.count '\n' ≤ n := by
        rw [List.count_cons] at h
        simpa [hc] using h
      cases n with
      | zero =>
        have := ih 0 hs
        simp only [replaceLoop] at this
        simp [replaceLoop, flattenChar, hc, ← this]
      | succ n =>
        rw [replaceLoop_newline_cons, if_neg hc, ih (n + 1) hs]
        simp [flattenChar, hc]

/-- The Go implementation of `flattenString` computes the character-wise map. -/
theorem flattenString_data (s : String) :
    (flattenString s).data = s.data.map flattenChar := by
  have hne : (['\n'] : List Char) ≠ [' '] := by decide
  simp only [flattenString, replaceAll, hne, if_false, count, List.isEmpty_cons,
    Bool.false_eq_true]
  rw [countFrom_newline _ _ (le_refl _)]
  split
  · rename_i h0
    have := replaceLoop_newline 0 s.data (by omega)
    simpa [replaceLoop] using this
  · exact replaceLoop_newline _ _ (le_refl _)

theorem flattenChar_utf8Size (c : Char) : (flattenChar c).utf8Size = c.utf8Size := by
  unfold flattenChar
  split
  · rename_i h; subst h; decide
  · rfl

theorem utf8ByteSize_go_map (l : List Char) :
    String.utf8ByteSize.go (l.map flattenChar) = String.utf8ByteSize.go l := by
  induction l with
  | nil => rfl
  | cons c l ih =>
    show String.utf8ByteSize.go (l.map flattenChar) + (flattenChar c).utf8Size =
      String.utf8ByteSize.go l + c.utf8Size
    rw [ih, flattenChar_utf8Size]

theorem flattenString_no_newline (s : String) : '\n' ∉ (flattenString s).data := by
  rw [flattenString_data s]
  intro h
  obtain ⟨c, -, hc⟩ := List.mem_map.mp h
  unfold flattenChar at hc
  split at hc
  · exact absurd hc (by decide)
  · rename_i hne; exact hne hc

/-- C4. For every string `s`, `flattenString s` contains no newline, has the same length
as `s` (in characters and in bytes), has a space wherever `s` has a newline and the
character of `s` everywhere else. -/
theorem flattenString_spec (s : String) :
    '\n' ∉ (flattenString s).data ∧
    (flattenString s).length = s.length ∧
    (flattenString s).utf8ByteSize = s.utf8ByteSize ∧
    ∀ i : Nat, (flattenString s).data[i]? =
      (s.data[i]?).map (fun c => if c = '\n' then ' ' else c) := by
  have hd := flattenString_data s
  refine ⟨flattenString_no_newline s, ?_, ?_, ?_⟩
  · show (flattenString s).data.length = s.data.length
    rw [hd, List.length_map]
  · show String.utf8ByteSize.go (flattenString s).data = String.utf8ByteSize.go s.data
    rw [hd, utf8ByteSize_go_map]
  · intro i
    rw [hd, List.getElem?_map]
    rfl

theorem commitEvent_eq (commit : Option RepositoryCommit) :
    commitEvent commit =
      match commitParts commit with
      | some p => .ok ⟨p.1, .eventCommit, flattenString p.2, 0⟩
      | none => .panic := by
  rcases commit with _ | ⟨⟨_ | ⟨_ | ⟨_ | d⟩, _ | m⟩⟩⟩ <;> rfl

theorem issueEvent_eq (issue : Option Issue) :
    issueEvent issue =
      match issueParts issue with
      | some p => .ok ⟨p.2.1, issueKind p.1, p.2.2.1, p.2.2.2⟩
      | none => .panic := by
  rcases issue with _ | ⟨_ | n, _ | t, _ | c, l⟩ <;> rfl

theorem commitLoop_eq (commits : List (Option RepositoryCommit)) (acc : List event) :
    commitLoop commits acc =
      if commits.all (fun c => (commitParts c).isSome) then
        .ok (acc ++ commits.filterMap (fun c => (commitParts c).map
          fun p => ⟨p.1, .eventCommit, flattenString p.2, 0⟩))
      else .panic := by
  induction commits generalizing acc with
  | nil => simp [commitLoop]
  | cons c cs ih =>
    rw [commitLoop, commitEvent_eq]
    cases h : commitParts c with
    | none => simp [Outcome.bind, h]
    | some p =>
      simp only [Outcome.bind, ih, List.all_cons, h, Option.isSome_some, Bool.true_and,
        List.filterMap_cons, Option.map_some', List.append_assoc, List.singleton_append]

theorem issueLoop_eq (issues : List (Option Issue)) (acc : List event) :
    issueLoop issues acc =
      if issues.all (fun i => (issueParts i).isSome) then
        .ok (acc ++ issues.filterMap (fun i => (issueParts i).map
          fun p => ⟨p.2.1, issueKind p.1, p.2.2.1, p.2.2.2⟩))
      else .panic := by
  induction issues generalizing acc with
  | nil => simp [issueLoop]
  | cons c cs ih =>
    rw [issueLoop, issueEvent_eq]
    cases h : issueParts c with
    | none => simp [Outcome.bind, h]
    | some p =>
      simp only [Outcome.bind, ih, List.all_cons, h, Option.isSome_some, Bool.true_and,
        List.filterMap_cons, Option.map_some', List.append_assoc, List.singleton_append]

theorem issueLoop_present (issues : List Issue) (acc : List event)
    (h : ∀ it ∈ issues, it.CreatedAt.isSome ∧ it.Title.isSome ∧ it.Number.isSome) :
    issueLoop (issues.map some) acc =
      .ok (acc ++ issues.map fun it =>
        ⟨it.CreatedAt.getD default, issueKind it, it.Title.getD "", it.Number.getD 0⟩) := by
  induction issues generalizing acc with
  | nil => simp [issueLoop]
  | cons it its ih =>
    obtain ⟨h1, h2, h3⟩ := h it (List.mem_cons_self _ _)
    obtain ⟨n, t, c, l⟩ := it
    obtain ⟨c, rfl⟩ := Option.isSome_iff_exists.mp h1
    obtain ⟨t, rfl⟩ := Option.isSome_iff_exists.mp h2
    obtain ⟨n, rfl⟩ := Option.isSome_iff_exists.mp h3
    rw [List.map_cons, issueLoop, issueEvent_eq]
    simp only [issueParts, Outcome.bind]
    rw [ih _ (fun it hit => h it (List.mem_cons_of_mem _ hit))]
    simp

/-- C5. When every item of the issues endpoint carries its creation time, title and
number, `getIssueEvents` returns one event per item, in the order of the items; the
event of a pull request item has kind PullRequest, the event of any other item has kind
Issue, and no event has kind Commit. -/
theorem getIssueEvents_classifies (issues : List Issue)
    (h : ∀ it ∈ issues, it.CreatedAt.isSome ∧ it.Title.isSome ∧ it.Number.isSome) :
    ∃ events, getIssueEvents (.ok (issues.map some)) = .ok events ∧
      events.length = issues.length ∧
      (∀ k : Nat, (events[k]?).map (·.eventType) = (issues[k]?).map
        (fun it => if it.IsPullRequest then eventType.eventPullRequest
          else eventType.eventIssue)) ∧
      ∀ e ∈ events, e.eventType ≠ eventType.eventCommit := by
  refine ⟨[] ++ issues.map fun it =>
    ⟨it.CreatedAt.getD default, issueKind it, it.Title.getD "", it.Number.getD 0⟩,
    ?_, ?_, ?_, ?_⟩
  · show issueLoop (issues.map some) [] = _
    rw [issueLoop_present issues [] h]
  · simp
  · intro k
    simp only [List.nil_append, List.getElem?_map, Option.map_map]
    rfl
  · intro e he
    simp only [List.nil_append, List.mem_map] at he
    obtain ⟨it, -, rfl⟩ := he
    simp only [issueKind]
    split <;> simp

theorem getIssueEvents_classifies_witness :
    (∀ it ∈ [prItem, plainItem], it.CreatedAt.isSome ∧ it.Title.isSome ∧ it.Number.isSome) ∧
    ∃ events, getIssueEvents (.ok ([prItem, plainItem].map some)) = .ok events ∧
      events.length = [prItem, plainItem].length ∧
      (∀ k : Nat, (events[k]?).map (·.eventType) = ([prItem, plainItem][k]?).map
        (fun it => if it.IsPullRequest then eventType.eventPullRequest
          else eventType.eventIssue)) ∧
      ∀ e ∈ events, e.eventType ≠ eventType.eventCommit :=
  ⟨by decide, getIssueEvents_classifies [prItem, plainItem] (by decide)⟩

/-- C9, as stated, fails: on a successful response with a commit that lacks its author
date `getCommitEvents` does not return an error, it panics; and so does `getIssueEvents`
on an item without title. -/
theorem missing_field_no_error :
    getCommitEvents (.ok [undatedCommit]) = .panic ∧
    (∀ err, getCommitEvents (.ok [undatedCommit]) ≠ .error err) ∧
    getIssueEvents (.ok [untitledItem]) = .panic ∧
    (∀ err, getIssueEvents (.ok [untitledItem]) ≠ .error err) := by
  refine ⟨rfl, ?_, rfl, ?_⟩
  · intro err h
    have h2 : getCommitEvents (.ok [undatedCommit]) = .panic := rfl
    rw [h2] at h
    cases h
  · intro err h
    have h2 : getIssueEvents (.ok [untitledItem]) = .panic := rfl
    rw [h2] at h
    cases h

/-- C9, amended. On a successful response in which some commit lacks its author date or
its message (some pointer on the way to them is nil), `getCommitEvents` panics: it
returns neither events nor an error. Likewise `getIssueEvents` panics when some item
lacks its creation time, title or number. The fetchers return an error only when the API
call itself fails, and then they return the error of the call. -/
theorem missing_field_panics (commits : List (Option RepositoryCommit))
    (issues : List (Option Issue)) (commitsResp : Response RepositoryCommit)
    (issuesResp : Response Issue) (err : GoError) :
    ((∃ c ∈ commits, commitParts c = none) →
      getCommitEvents (.ok commits) = .panic ∧
      (∀ events, getCommitEvents (.ok commits) ≠ .ok events) ∧
      (∀ e, getCommitEvents (.ok commits) ≠ .error e)) ∧
    ((∃ i ∈ issues, issueParts i = none) →
      getIssueEvents (.ok issues) = .panic ∧
      (∀ events, getIssueEvents (.ok issues) ≠ .ok events) ∧
      (∀ e, getIssueEvents (.ok issues) ≠ .error e)) ∧
    (getCommitEvents commitsResp = .error err ↔ commitsResp = .error err) ∧
    (getIssueEvents issuesResp = .error err ↔ issuesResp = .error err) := by
  refine ⟨?_, ?_, ?_, ?_⟩
  · rintro ⟨c, hc, hn⟩
    have hp : getCommitEvents (.ok commits) = .panic := by
      show commitLoop commits [] = _
      rw [commitLoop_eq, if_neg]
      intro hall
      have := List.all_eq_true.mp hall c hc
      simp [hn] at this
    refine ⟨hp, ?_, ?_⟩
    · intro events h
      rw [hp] at h
      cases h
    · intro e h
      rw [hp] at h
      cases h
  · rintro ⟨i, hi, hn⟩
    have hp : getIssueEvents (.ok issues) = .panic := by
      show issueLoop issues [] = _
      rw [issueLoop_eq, if_neg]
      intro hall
      have := List.all_eq_true.mp hall i hi
      simp [hn] at this
    refine ⟨hp, ?_, ?_⟩
    · intro events h
      rw [hp] at h
      cases h
    · intro e h
      rw [hp] at h
      cases h
  · constructor
    · intro h
      cases commitsResp with
      | error e =>
        change Outcome.error e = Outcome.error err at h
        injection h with h
        rw [h]
      | ok cs =>
        change commitLoop cs [] = _ at h
        rw [commitLoop_eq] at h
        split at h <;> cases h
    · intro h
      rw [h]
      rfl
  · constructor
    · intro h
      cases issuesResp with
      | error e =>
        change Outcome.error e = Outcome.error err at h
        injection h with h
        rw [h]
      | ok is =>
        change issueLoop is [] = _ at h
        rw [issueLoop_eq] at h
        split at h <;> cases h
    · intro h
      rw [h]
      rfl

theorem missing_field_panics_witness :
    (getCommitEvents (.ok [undatedCommit]) = .panic ∧
      (∀ events, getCommitEvents (.ok [undatedCommit]) ≠ .ok events) ∧
      (∀ e, getCommitEvents (.ok [undatedCommit]) ≠ .error e)) ∧
    (getIssueEvents (.ok [untitledItem]) = .panic ∧
      (∀ events, getIssueEvents (.ok [untitledItem]) ≠ .ok events) ∧
      (∀ e, getIssueEvents (.ok [untitledItem]) ≠ .error e)) ∧
    (Except.error netError : Response RepositoryCommit) = .error netError ∧
    (Except.error netError : Response Issue) = .error netError :=
  ⟨(missing_field_panics [undatedCommit] [untitledItem] (.error netError) (.error netError)
      netError).1 ⟨undatedCommit, by simp, rfl⟩,
   (missing_field_panics [undatedCommit] [untitledItem] (.error netError) (.error netError)
      netError).2.1 ⟨untitledItem, by simp, rfl⟩,
   (missing_field_panics [undatedCommit] [untitledItem] (.error netError) (.error netError)
      netError).2.2.1.mp rfl,
   (missing_field_panics [undatedCommit] [untitledItem] (.error netError) (.error netError)
      netError).2.2.2.mp rfl⟩

/-- C10, as stated, fails: `getIssueEvents` copies a title with a newline unchanged into
the message of the event. -/
theorem issue_message_newline :
    ∃ e, getIssueEvents (.ok [twoLineItem]) = .ok [e] ∧ '\n' ∈ e.message.data :=
  ⟨twoLineEvent, rfl, by decide⟩

/-- C10, amended. Every event returned by `getCommitEvents` has a message without
newline; every event returned by `getIssueEvents` has the title of its item, unchanged,
as its message. -/
theorem fetched_messages (commits : Response RepositoryCommit) (issues : Response Issue)
    (events : List event) :
    (getCommitEvents commits = .ok events → ∀ e ∈ events, '\n' ∉ e.message.data) ∧
    (getIssueEvents issues = .ok events →
      ∃ items, issues = .ok items ∧
        events.map (fun e => some e.message) = items.map (fun i => i.bind (·.Title))) := by
  constructor
  · intro h e he
    cases commits with
    | error err => cases h
    | ok cs =>
      change commitLoop cs [] = _ at h
      rw [commitLoop_eq] at h
      split at h
      · injection h with h
        subst h
        simp only [List.nil_append, List.mem_filterMap, Option.map_eq_some'] at he
        obtain ⟨c, -, p, -, rfl⟩ := he
        exact flattenString_no_newline p.2
      · cases h
  · intro h
    cases issues with
    | error err => cases h
    | ok items =>
      refine ⟨items, rfl, ?_⟩
      change issueLoop items [] = _ at h
      rw [issueLoop_eq] at h
      split at h
      · rename_i hall
        injection h with h
        subst h
        simp only [List.nil_append]
        induction items with
        | nil => rfl
        | cons i is ih =>
          simp only [List.all_cons, Bool.and_eq_true] at hall
          obtain ⟨h1, h2⟩ := hall
          obtain ⟨p, hp⟩ := Option.isSome_iff_exists.mp h1
          rw [List.filterMap_cons, hp]
          simp only [Option.map_some', List.map_cons, ih h2, List.cons.injEq, and_true]
          rcases i with _ | ⟨_ | n, _ | t, _ | c, l⟩ <;> simp [issueParts] at hp
          obtain ⟨rfl⟩ := hp
          rfl
      · cases h

theorem fetched_messages_witness :
    (∀ e ∈ [sampleCommit], '\n' ∉ e.message.data) ∧
    (∃ items, (Except.ok [twoLineItem] : Response Issue) = .ok items ∧
      [twoLineEvent].map (fun e => some e.message) = items.map (fun i => i.bind (·.Title))) :=
  ⟨(fetched_messages oneCommit (.ok []) [sampleCommit]).1 rfl,
   (fetched_messages (.ok []) (.ok [twoLineItem]) [twoLineEvent]).2 rfl⟩

/-! ### Facts about the timestamp layout -/

theorem decimal_lt_ten (n : Nat) (h : n < 10) : decimal n = [digitChar n] := by
  have : ¬ n ≥ 10 := by omega
  simp [decimal, decimalAux, this]

theorem decimal_lt_hundred (n : Nat) (h1 : 10 ≤ n) (h2 : n < 100) :
    decimal n = [digitChar (n / 10), digitChar (n % 10)] := by
  have h3 : ¬ n / 10 ≥ 10 := by omega
  simp [decimal, decimalAux, h1, h3]

theorem appendInt_two (n : Nat) (h : n < 100) : appendInt (n : Int) 2 = twoDigits n := by
  have hneg : ¬ ((n : Int) < 0) := by omega
  by_cases h10 : n < 10
  · have h0 : n / 10 = 0 := by omega
    have h1 : n % 10 = n := by omega
    simp [appendInt, hneg, decimal_lt_ten n h10, twoDigits, h0, h1, digitChar]
  · simp [appendInt, hneg, decimal_lt_hundred n (by omega) h, twoDigits]

theorem decimal_four (n : Nat) (h : n < 10000) :
    List.replicate (4 - (decimal n).length) '0' ++ decimal n = fourDigits n := by
  have z : digitChar 0 = '0' := rfl
  by_cases h10 : n < 10
  · have e1 : n / 1000 = 0 := by omega
    have e2 : n / 100 % 10 = 0 := by omega
    have e3 : n / 10 % 10 = 0 := by omega
    have e4 : n % 10 = n := by omega
    simp [decimal_lt_ten n h10, fourDigits, e1, e2, e3, e4, z, List.replicate]
  · by_cases h100 : n < 100
    · have e1 : n / 1000 = 0 := by omega
      have e2 : n / 100 % 10 = 0 := by omega
      have e3 : n / 10 % 10 = n / 10 := by omega
      simp [decimal_lt_hundred n (by omega) h100, fourDigits, e1, e2, e3, z, List.replicate]
    · by_cases h1000 : n < 1000
      · have a1 : n ≥ 10 := by omega
        have a2 : n / 10 ≥ 10 := by omega
        have a3 : ¬ n / 10 / 10 ≥ 10 := by omega
        have e1 : n / 1000 = 0 := by omega
        have e2 : n / 100 % 10 = n / 10 / 10 := by omega
        simp [decimal, decimalAux, a1, a2, a3, fourDigits, e1, e2, z, List.replicate]
      · have a1 : n ≥ 10 := by omega
        have a2 : n / 10 ≥ 10 := by omega
        have a3 : n / 10 / 10 ≥ 10 := by omega
        have a4 : ¬ n / 10 / 10 / 10 ≥ 10 := by omega
        have e1 : n / 1000 = n / 10 / 10 / 10 := by omega
        have e2 : n / 100 % 10 = n / 10 / 10 % 10 := by omega
        simp [decimal, decimalAux, a1, a2, a3, a4, fourDigits, e1, e2]

theorem appendInt_four (n : Nat) (h : n < 10000) : appendInt (n : Int) 4 = fourDigits n := by
  have hneg : ¬ ((n : Int) < 0) := by omega
  simp only [appendInt, hneg, if_false, List.nil_append, Int.natAbs_ofNat]
  exact decimal_four n h

theorem absClock_bounds (abs : Nat) :
    (absClock abs).1 < 24 ∧ (absClock abs).2.1 < 60 ∧ (absClock abs).2.2 < 60 := by
  simp only [absClock, secondsPerDay]
  omega

theorem isLeap_false (year : Int) (h : isLeap year = false) :
    year % 4 ≠ 0 ∨ (year % 100 = 0 ∧ year % 400 ≠ 0) := by
  unfold isLeap at h
  by_cases h4 : year % 4 = 0
  · right
    by_cases h100 : year % 100 = 0
    · by_cases h400 : year % 400 = 0
      · simp [h4, h100, h400] at h
      · exact ⟨h100, h400⟩
    · simp [h4, h100] at h
  · exact Or.inl h4

theorem yearDay_core (d n1 d1 n2 m2 d2 n3 d3 n4 m4 d4 : Nat) (year : Int)
    (h1 : n1 = d / 146097) (h2 : d1 = d - 146097 * n1) (h3 : n2 = d1 / 36524)
    (h4 : m2 = n2 - n2 / 4) (h5 : d2 = d1 - 36524 * m2) (h6 : n3 = d2 / 1461)
    (h7 : d3 = d2 - 1461 * n3) (h8 : n4 = d3 / 365) (h9 : m4 = n4 - n4 / 4)
    (h10 : d4 = d3 - 365 * m4)
    (hy : year = ((400 * n1 + 100 * m2 + 4 * n3 + m4 : Nat) : Int) + (-292277022399)) :
    d4 ≤ 365 ∧ ((year % 4 ≠ 0 ∨ (year % 100 = 0 ∧ year % 400 ≠ 0)) → d4 ≤ 364) := by
  have a1 : d1 < 146097 := by omega
  have a2 : m2 ≤ 3 := by omega
  have a3 : d2 ≤ 36524 ∧ (d2 = 36524 → m2 = 3) := by omega
  have a4 : n3 ≤ 24 := by omega
  have a5 : d3 ≤ 1460 ∧ d2 = d3 + 1461 * n3 := by omega
  have a6 : m4 ≤ 3 ∧ d4 ≤ 365 ∧ (365 ≤ d4 → m4 = 3 ∧ d3 = 1460) := by omega
  refine ⟨a6.2.1, fun hl => ?_⟩
  by_contra hd
  obtain ⟨e1, e2⟩ := a6.2.2 (by omega)
  have hyear : year = 400 * ((n1 : Int) - 730692556) + 100 * (m2 : Int) + 4 * (n3 : Int) + 4 := by
    rw [hy, e1]
    push_cast
    ring
  have b1 : year % 4 = 0 := by omega
  rcases hl with hl | ⟨hl1, hl2⟩
  · exact hl b1
  · have b2 : n3 = 24 := by omega
    have b3 : m2 = 3 := a3.2 (by omega)
    apply hl2
    rw [hyear, b2, b3]
    omega

theorem absYearDay_bounds (abs : Nat) :
    (absYearDay abs).2 ≤ 365 ∧ (isLeap (absYearDay abs).1 = false → (absYearDay abs).2 ≤ 364) := by
  have h := yearDay_core (abs / 86400) _ _ _ _ _ _ _ _ _ (absYearDay abs).2 (absYearDay abs).1
    rfl rfl rfl rfl rfl rfl rfl rfl rfl rfl rfl
  exact ⟨h.1, fun hl => h.2 (isLeap_false _ hl)⟩

theorem monthDay_bounds (leap : Bool) (yday : Nat) (h1 : yday ≤ 365)
    (h2 : leap = false → yday ≤ 364) :
    1 ≤ (monthDay leap yday).1 ∧ (monthDay leap yday).1 ≤ 12 ∧
    1 ≤ (monthDay leap yday).2 ∧ (monthDay leap yday).2 ≤ 31 := by
  unfold monthDay
  split
  · simp
  · rename_i hfeb
    have key : ∀ day : Nat, day ≤ 364 →
        1 ≤ (if day ≥ daysBefore.getD (day / 31 + 1) 0 then
            (day / 31 + 1 + 1, day - daysBefore.getD (day / 31 + 1) 0 + 1)
          else (day / 31 + 1, day - daysBefore.getD (day / 31) 0 + 1)).1 ∧
        (if day ≥ daysBefore.getD (day / 31 + 1) 0 then
            (day / 31 + 1 + 1, day - daysBefore.getD (day / 31 + 1) 0 + 1)
          else (day / 31 + 1, day - daysBefore.getD (day / 31) 0 + 1)).1 ≤ 12 ∧
        1 ≤ (if day ≥ daysBefore.getD (day / 31 + 1) 0 then
            (day / 31 + 1 + 1, day - daysBefore.getD (day / 31 + 1) 0 + 1)
          else (day / 31 + 1, day - daysBefore.getD (day / 31) 0 + 1)).2 ∧
        (if day ≥ daysBefore.getD (day / 31 + 1) 0 then
            (day / 31 + 1 + 1, day - daysBefore.getD (day / 31 + 1) 0 + 1)
          else (day / 31 + 1, day - daysBefore.getD (day / 31) 0 + 1)).2 ≤ 31 := by
      intro day hday
      have hm : day / 31 < 12 := by omega
      generalize hq : day / 31 = q at hm ⊢
      interval_cases q <;> simp [daysBefore] <;> split <;> simp <;> omega
    cases leap with
    | false =>
      simp only [Bool.false_and, Bool.false_eq_true, if_false]
      exact key yday (h2 rfl)
    | true =>
      simp only [Bool.true_and, decide_eq_true_eq] at hfeb ⊢
      split
      · exact key (yday - 1) (by omega)
      · exact key yday (by omega)

/-! ### Rendering -/

theorem Format_layout (t : Time) :
    ∃ mo d hr mi s : Nat, (1 ≤ mo ∧ mo ≤ 12) ∧ (1 ≤ d ∧ d ≤ 31) ∧ hr < 24 ∧ mi < 60 ∧ s < 60 ∧
      t.Format.data = appendInt (absDate t.abs).1 4 ++ '-' :: twoDigits mo ++ '-' ::
        twoDigits d ++ ' ' :: twoDigits hr ++ ':' :: twoDigits mi ++ ':' :: twoDigits s := by
  obtain ⟨hh, hmi, hs⟩ := absClock_bounds t.abs
  obtain ⟨hy1, hy2⟩ := absYearDay_bounds t.abs
  obtain ⟨hm1, hm2, hd1, hd2⟩ :=
    monthDay_bounds (isLeap (absYearDay t.abs).1) (absYearDay t.abs).2 hy1 hy2
  refine ⟨(absDate t.abs).2.1, (absDate t.abs).2.2, (absClock t.abs).1, (absClock t.abs).2.1,
    (absClock t.abs).2.2, ⟨hm1, hm2⟩, ⟨hd1, hd2⟩, hh, hmi, hs, ?_⟩
  have e1 := appendInt_two (absDate t.abs).2.1 (by show (monthDay _ _).1 < 100; omega)
  have e2 := appendInt_two (absDate t.abs).2.2 (by show (monthDay _ _).2 < 100; omega)
  have e3 := appendInt_two (absClock t.abs).1 (by omega)
  have e4 := appendInt_two (absClock t.abs).2.1 (by omega)
  have e5 := appendInt_two (absClock t.abs).2.2 (by omega)
  simp only [Time.Format, e1, e2, e3, e4, e5, List.append_assoc, List.singleton_append]

theorem decimalAux_length (fuel u : Nat) (acc : List Char) :
    acc.length ≤ (decimalAux fuel u acc).length := by
  induction fuel generalizing u acc with
  | zero => simp [decimalAux]
  | succ fuel ih =>
    unfold decimalAux
    split
    · exact le_trans (by simp) (ih _ _)
    · simp

theorem decimal_length_two (n : Nat) (h : 10 ≤ n) : 2 ≤ (decimal n).length := by
  have h1 : decimal n = decimalAux 19 (n / 10) [digitChar (n % 10)] := by
    simp [decimal, decimalAux, h]
  rw [h1]
  unfold decimalAux
  split
  · exact le_trans (by simp) (decimalAux_length _ _ _)
  · simp

set_option maxRecDepth 100000 in
/-- C6, as stated, fails: issue number 5 is rendered with a space, not a zero, in front
of the digit. -/
theorem issue_number_not_zero_padded :
    (printEvent sampleIssue).text = "# 5 2024-01-02 00:00:00 add feature" ∧
    (printEvent sampleIssue).text ≠ "#05 2024-01-02 00:00:00 add feature" := by
  decide

/-- C6, amended. For every Issue event the rendered text is `#`, the number right-aligned
in a field of width 2 that is filled with a space (a number from 0 to 9 gives a space and
its digit, a number from 10 on gives its decimal digits), a space, the timestamp as
`YYYY-MM-DD HH:MM:SS`, a space, and the title. -/
theorem issue_line (e : event) (h : e.eventType = .eventIssue) :
    (∃ field stamp : List Char,
      (printEvent e).text.data = '#' :: field ++ ' ' :: stamp ++ ' ' :: e.message.data ∧
      field = fmtD 2 e.number ∧ stamp = e.createdAt.Format.data ∧
      2 ≤ field.length ∧
      (0 ≤ e.number → e.number ≤ 9 → field = [' ', digitChar e.number.toNat]) ∧
      (10 ≤ e.number → field = decimal e.number.toNat)) ∧
    (printEvent e).attr = FgMagenta := by
  refine ⟨⟨fmtD 2 e.number, e.createdAt.Format.data, ?_, rfl, rfl, ?_, ?_, ?_⟩, ?_⟩
  · simp [printEvent, h, issueText]
  · simp only [fmtD, List.length_append, List.length_replicate]
    omega
  · intro h0 h9
    obtain ⟨n, hn⟩ := Int.eq_ofNat_of_zero_le h0
    have hlt : n < 10 := by omega
    have hneg : ¬ ((n : Int) < 0) := by omega
    simp [fmtD, hneg, hn, decimal_lt_ten n hlt, List.replicate]
  · intro h10
    obtain ⟨n, hn⟩ := Int.eq_ofNat_of_zero_le (show 0 ≤ e.number by omega)
    have hneg : ¬ ((n : Int) < 0) := by omega
    have hlen := decimal_length_two n (by omega)
    have hz : 2 - (decimal n).length = 0 := by omega
    simp [fmtD, hneg, hn, hz]
  · simp [printEvent, h]

theorem issue_line_witness :
    sampleIssue.eventType = .eventIssue ∧
    ((∃ field stamp : List Char,
      (printEvent sampleIssue).text.data =
        '#' :: field ++ ' ' :: stamp ++ ' ' :: sampleIssue.message.data ∧
      field = fmtD 2 sampleIssue.number ∧ stamp = sampleIssue.createdAt.Format.data ∧
      2 ≤ field.length ∧
      (0 ≤ sampleIssue.number → sampleIssue.number ≤ 9 →
        field = [' ', digitChar sampleIssue.number.toNat]) ∧
      (10 ≤ sampleIssue.number → field = decimal sampleIssue.number.toNat)) ∧
    (printEvent sampleIssue).attr = FgMagenta) :=
  ⟨rfl, issue_line sampleIssue rfl⟩

/-- C7. For every Commit event the rendered text is four spaces, the timestamp, a space
and the message of the event (the flattened commit message); the timestamp is
`YYYY-MM-DD HH:MM:SS` with two digits for each of month, day, hour, minute and second and,
for a year from 0 to 9999, four digits for the year; the number of the event has no
influence on the line. -/
theorem commit_line (e : event) (h : e.eventType = .eventCommit) :
    (∃ stamp : List Char,
      (printEvent e).text.data = [' ', ' ', ' ', ' '] ++ stamp ++ ' ' :: e.message.data ∧
      stamp = e.createdAt.Format.data ∧
      ∃ mo d hr mi s : Nat, (1 ≤ mo ∧ mo ≤ 12) ∧ (1 ≤ d ∧ d ≤ 31) ∧ hr < 24 ∧ mi < 60 ∧ s < 60 ∧
        stamp = appendInt (absDate e.createdAt.abs).1 4 ++ '-' :: twoDigits mo ++ '-' ::
          twoDigits d ++ ' ' :: twoDigits hr ++ ':' :: twoDigits mi ++ ':' :: twoDigits s ∧
        (0 ≤ (absDate e.createdAt.abs).1 → (absDate e.createdAt.abs).1 ≤ 9999 →
          appendInt (absDate e.createdAt.abs).1 4 =
            fourDigits (absDate e.createdAt.abs).1.toNat ∧ stamp.length = 19)) ∧
    (∀ n : Int, printEvent { e with number := n } = printEvent e) ∧
    (printEvent e).attr = FgYellow ∧
    (∀ (date : Time) (msg : String),
      getCommitEvents (.ok [some ⟨some ⟨some ⟨some date⟩, some msg⟩⟩]) =
        .ok [⟨date, .eventCommit, flattenString msg, 0⟩]) := by
  obtain ⟨mo, d, hh, mi, s, hmo, hd, hhh, hmi, hs, hfmt⟩ := Format_layout e.createdAt
  refine ⟨⟨e.createdAt.Format.data, ?_, rfl, mo, d, hh, mi, s, hmo, hd, hhh, hmi, hs, hfmt, ?_⟩,
    ?_, ?_, ?_⟩
  · simp [printEvent, h, commitText]
  · intro h0 h9
    obtain ⟨n, hn⟩ := Int.eq_ofNat_of_zero_le h0
    have h4 : appendInt (absDate e.createdAt.abs).1 4 = fourDigits n := by
      rw [hn]; exact appendInt_four n (by omega)
    refine ⟨by rw [h4, hn]; rfl, ?_⟩
    rw [hfmt, h4]
    simp [fourDigits, twoDigits]
  · intro n
    simp [printEvent, h, commitText]
  · simp [printEvent, h]
  · intro date msg
    rfl

set_option maxRecDepth 100000 in
theorem commit_line_witness :
    sampleCommit.eventType = .eventCommit ∧
    (printEvent sampleCommit).text = "    2024-01-01 10:00:00 fix bug" ∧
    (∀ n : Int, printEvent { sampleCommit with number := n } = printEvent sampleCommit) :=
  ⟨rfl, by decide, (commit_line sampleCommit rfl).2.1⟩

/-- C8. If the commit fetch returns an error, `run` returns that error after the commits
call alone: the issues call is not made and no line is printed. If the commit fetch
succeeds and the issue fetch returns an error, `run` returns that error after the two
calls and prints no line. -/
theorem run_fetch_error (api : Api) (err : GoError) :
    (getCommitEvents api.commits = .error err →
      (run api).trace = [.listCommits] ∧ (run api).result = .error err) ∧
    (∀ commits, getCommitEvents api.commits = .ok commits →
      getIssueEvents api.issues = .error err →
      (run api).trace = [.listCommits, .listIssues] ∧ (run api).result = .error err) := by
  constructor
  · intro h
    simp [run, h]
  · intro commits h1 h2
    simp [run, h1, h2]

theorem run_fetch_error_witness :
    ((run ⟨.error netError, .ok []⟩).trace = [.listCommits] ∧
      (run ⟨.error netError, .ok []⟩).result = .error netError) ∧
    ((run ⟨oneCommit, .error netError⟩).trace = [.listCommits, .listIssues] ∧
      (run ⟨oneCommit, .error netError⟩).result = .error netError) :=
  ⟨(run_fetch_error ⟨.error netError, .ok []⟩ netError).1 rfl,
   (run_fetch_error ⟨oneCommit, .error netError⟩ netError).2 _ rfl rfl⟩

section SliceFacts1

variable {α : Type} [Inhabited α]

theorem elem_eq_getElem (data : List α) (i : Nat) (h : i < data.length) :
    elem data i = data[i] := by
  simp [elem, h]

theorem length_Swap (data : List α) (i j : Nat) : (Swap data i j).length = data.length := by
  unfold Swap
  split <;> simp

theorem elem_Swap (data : List α) (i j k : Nat) (hi : i < data.length) (hj : j < data.length) :
    elem (Swap data i j) k =
      if k = j then elem data i else if k = i then elem data j else elem data k := by
  unfold Swap
  rw [if_pos ⟨hi, hj⟩]
  simp only [elem, List.getD_eq_getElem?_getD, List.getElem?_set, List.length_set]
  by_cases h1 : k = j
  · subst h1
    simp [hi, hj]
  · by_cases h2 : k = i
    · subst h2
      have : ¬ j = k := fun h => h1 h.symm
      simp [this, hi, h1]
    · have e1 : ¬ j = k := fun h => h1 h.symm
      have e2 : ¬ i = k := fun h => h2 h.symm
      simp [e1, e2, h1, h2]

theorem elem_Swap_left (data : List α) (i j : Nat) (hi : i < data.length)
    (hj : j < data.length) : elem (Swap data i j) i = elem data j := by
  rw [elem_Swap data i j i hi hj]
  split
  · rename_i h; rw [h]
  · rw [if_pos rfl]

theorem elem_Swap_right (data : List α) (i j : Nat) (hi : i < data.length)
    (hj : j < data.length) : elem (Swap data i j) j = elem data i := by
  rw [elem_Swap data i j j hi hj, if_pos rfl]

theorem elem_Swap_other (data : List α) (i j k : Nat) (hki : k ≠ i) (hkj : k ≠ j) :
    elem (Swap data i j) k = elem data k := by
  by_cases h : i < data.length ∧ j < data.length
  · rw [elem_Swap data i j k h.1 h.2, if_neg hkj, if_neg hki]
  · unfold Swap
    rw [if_neg h]

theorem Swap_perm (data : List α) (i j : Nat) : (Swap data i j).Perm data := by
  classical
  unfold Swap
  split
  · rename_i h
    obtain ⟨hi, hj⟩ := h
    rw [List.perm_iff_count]
    intro x
    rw [List.count_set _ _ _ _ (by simpa using hj), List.count_set _ _ _ _ hi]
    simp only [elem, List.getD_eq_getElem?_getD, List.getElem?_eq_getElem hi,
      List.getElem?_eq_getElem hj, Option.getD_some, List.getElem_set, beq_iff_eq]
    have c1 : (if data[i] = x then 1 else 0) ≤ data.count x := by
      split
      · rename_i hx
        exact List.count_pos_iff.mpr (hx ▸ List.getElem_mem hi)
      · omega
    have c2 : (if data[j] = x then 1 else 0) ≤ data.count x := by
      split
      · rename_i hx
        exact List.count_pos_iff.mpr (hx ▸ List.getElem_mem hj)
      · omega
    by_cases hij : i = j
    · subst hij
      simp only [if_true]
      generalize (if data[i] = x then 1 else 0) = u at c1 c2 ⊢
      omega
    · simp only [hij, if_false]
      generalize (if data[i] = x then 1 else 0) = u at c1 ⊢
      generalize (if data[j] = x then 1 else 0) = v at c2 ⊢
      omega
  · exact List.Perm.refl _

theorem Within.refl (a b : Nat) (d : List α) : Within a b d d :=
  ⟨rfl, fun _ _ => rfl, fun k h1 h2 => ⟨k, h1, h2, rfl⟩⟩

theorem Within.trans {a b : Nat} {d1 d2 d3 : List α} (h12 : Within a b d1 d2)
    (h23 : Within a b d2 d3) : Within a b d1 d3 := by
  refine ⟨h23.1.trans h12.1, fun k hk => (h23.2.1 k hk).trans (h12.2.1 k hk), ?_⟩
  intro k h1 h2
  obtain ⟨k', h1', h2', e⟩ := h23.2.2 k h1 h2
  obtain ⟨k'', h1'', h2'', e'⟩ := h12.2.2 k' h1' h2'
  exact ⟨k'', h1'', h2'', e.trans e'⟩

theorem Within.mono {a b a' b' : Nat} {d1 d2 : List α} (h : Within a b d1 d2) (ha : a' ≤ a)
    (hb : b ≤ b') : Within a' b' d1 d2 := by
  refine ⟨h.1, fun k hk => h.2.1 k (by omega), ?_⟩
  intro k h1 h2
  by_cases hk : a ≤ k ∧ k < b
  · obtain ⟨k', h1', h2', e⟩ := h.2.2 k hk.1 hk.2
    exact ⟨k', by omega, by omega, e⟩
  · exact ⟨k, h1, h2, h.2.1 k (by omega)⟩

theorem Within_Swap (a b : Nat) (d : List α) (i j : Nat) (hai : a ≤ i) (hib : i < b)
    (haj : a ≤ j) (hjb : j < b) (hb : b ≤ d.length) : Within a b d (Swap d i j) := by
  have hi : i < d.length := by omega
  have hj : j < d.length := by omega
  refine ⟨length_Swap d i j, ?_, ?_⟩
  · intro k hk
    rw [elem_Swap d i j k hi hj, if_neg (by omega), if_neg (by omega)]
  · intro k h1 h2
    rw [elem_Swap d i j k hi hj]
    split
    · exact ⟨i, hai, hib, rfl⟩
    · split
      · exact ⟨j, haj, hjb, rfl⟩
      · exact ⟨k, h1, h2, rfl⟩

/-- Every element at an index from `a` up to `b` satisfies `P`. -/
theorem Within.forall {a b : Nat} {d1 d2 : List α} (h : Within a b d1 d2) (P : α → Prop)
    (hP : ∀ k, a ≤ k → k < b → P (elem d1 k)) : ∀ k, a ≤ k → k < b → P (elem d2 k) := by
  intro k h1 h2
  obtain ⟨k', h1', h2', e⟩ := h.2.2 k h1 h2
  rw [e]
  exact hP k' h1' h2'

theorem insertionInner_perm (less : α → α → Bool) (a j : Nat) (data : List α) :
    (insertionInner less a j data).Perm data := by
  induction j generalizing data with
  | zero => exact List.Perm.refl _
  | succ j ih =>
    unfold insertionInner
    split
    · exact (ih _).trans (Swap_perm _ _ _)
    · exact List.Perm.refl _

theorem insertionOuter_perm (less : α → α → Bool) (a b n i : Nat) (data : List α) :
    (insertionOuter less a b n i data).Perm data := by
  induction n generalizing i data with
  | zero => exact List.Perm.refl _
  | succ n ih =>
    unfold insertionOuter
    split
    · exact (ih _ _).trans (insertionInner_perm _ _ _ _)
    · exact List.Perm.refl _

theorem siftDown_perm (less : α → α → Bool) (hi first n root : Nat) (data : List α) :
    (siftDown_func less hi first n root data).Perm data := by
  induction n generalizing root data with
  | zero => exact List.Perm.refl _
  | succ n ih =>
    unfold siftDown_func
    simp only
    repeat' (first
      | exact List.Perm.refl _
      | refine (ih _ _).trans ?_
      | refine (Swap_perm _ _ _).trans ?_
      | split)

theorem heapBuild_perm (less : α → α → Bool) (hi first k : Nat) (data : List α) :
    (heapBuild less hi first k data).Perm data := by
  induction k generalizing data with
  | zero => exact List.Perm.refl _
  | succ k ih => exact (ih _).trans (siftDown_perm _ _ _ _ _ _)

theorem heapPop_perm (less : α → α → Bool) (first k : Nat) (data : List α) :
    (heapPop less first k data).Perm data := by
  induction k generalizing data with
  | zero => exact List.Perm.refl _
  | succ k ih => exact (ih _).trans ((siftDown_perm _ _ _ _ _ _).trans (Swap_perm _ _ _))

theorem heapSort_perm (less : α → α → Bool) (data : List α) (a b : Nat) :
    (heapSort_func less data a b).Perm data :=
  (heapPop_perm _ _ _ _).trans (heapBuild_perm _ _ _ _ _)

theorem medianOfThree_perm (less : α → α → Bool) (data : List α) (m1 m0 m2 : Nat) :
    (medianOfThree_func less data m1 m0 m2).Perm data := by
  unfold medianOfThree_func
  simp only
  repeat' (first
    | exact List.Perm.refl _
    | refine (Swap_perm _ _ _).trans ?_
    | split)

theorem partitionLoop_perm (less : α → α → Bool) (pivot n : Nat) (data : List α) (b c : Nat) :
    (partitionLoop less pivot n data b c).1.Perm data := by
  induction n generalizing data b c with
  | zero => exact List.Perm.refl _
  | succ n ih =>
    unfold partitionLoop
    simp only
    split
    · exact List.Perm.refl _
    · exact (ih _ _ _).trans (Swap_perm _ _ _)

theorem protectLoop_perm (less : α → α → Bool) (pivot n : Nat) (data : List α) (a b : Nat) :
    (protectLoop less pivot n data a b).1.Perm data := by
  induction n generalizing data a b with
  | zero => exact List.Perm.refl _
  | succ n ih =>
    unfold protectLoop
    simp only
    split
    · exact List.Perm.refl _
    · exact (ih _ _ _).trans (Swap_perm _ _ _)

theorem dupsProbe_perm (less : α → α → Bool) (data : List α) (pivot m hi b c : Nat) :
    (dupsProbe less data pivot m hi b c).1.Perm data := by
  unfold dupsProbe
  simp only
  repeat' (first
    | exact List.Perm.refl _
    | refine (Swap_perm _ _ _).trans ?_
    | split)

theorem doPivot_perm (less : α → α → Bool) (data : List α) (lo hi : Nat) :
    (doPivot_func less data lo hi).1.Perm data := by
  unfold doPivot_func
  simp only
  repeat' (first
    | exact List.Perm.refl _
    | refine (Swap_perm _ _ _).trans ?_
    | refine (protectLoop_perm _ _ _ _ _ _).trans ?_
    | refine (dupsProbe_perm _ _ _ _ _ _ _).trans ?_
    | refine (partitionLoop_perm _ _ _ _ _ _).trans ?_
    | refine (medianOfThree_perm _ _ _ _ _).trans ?_
    | split)

theorem shellPass_perm (less : α → α → Bool) (b n i : Nat) (data : List α) :
    (shellPass less b n i data).Perm data := by
  induction n generalizing i data with
  | zero => exact List.Perm.refl _
  | succ n ih =>
    unfold shellPass
    split
    · refine (ih _ _).trans ?_
      split
      · exact Swap_perm _ _ _
      · exact List.Perm.refl _
    · exact List.Perm.refl _

theorem smallSort_perm (less : α → α → Bool) (data : List α) (a b : Nat) :
    (smallSort less data a b).Perm data := by
  unfold smallSort
  split
  · exact (insertionOuter_perm _ _ _ _ _ _).trans (shellPass_perm _ _ _ _ _)
  · exact List.Perm.refl _

theorem quickSort_perm (less : α → α → Bool) (fuel : Nat) (data : List α) (a b maxDepth : Nat) :
    (quickSort_func less fuel data a b maxDepth).Perm data := by
  induction fuel generalizing data a b maxDepth with
  | zero => exact smallSort_perm _ _ _ _
  | succ fuel ih =>
    unfold quickSort_func
    split
    · split
      · exact heapSort_perm _ _ _ _
      · simp only
        split
        · exact (ih _ _ _ _).trans ((ih _ _ _ _).trans (doPivot_perm _ _ _ _))
        · exact (ih _ _ _ _).trans ((ih _ _ _ _).trans (doPivot_perm _ _ _ _))
    · exact smallSort_perm _ _ _ _

theorem sortSlice_perm (less : α → α → Bool) (data : List α) :
    (sortSlice less data).Perm data :=
  quickSort_perm _ _ _ _ _ _

theorem insertionInner_sorted (less : α → α → Bool)
    (htot : ∀ x y, less x y = true ∨ less y x = true)
    (htr : ∀ x y z, less x y = true → less y z = true → less x z = true)
    (a i j : Nat) (data : List α) (haj : a ≤ j) (hji : j ≤ i) (hi : i < data.length)
    (inv : ∀ p q, a ≤ p → p < q → q ≤ i → q ≠ j → less (elem data p) (elem data q) = true) :
    Within a (i + 1) data (insertionInner less a j data) ∧
      SortedOn less (insertionInner less a j data) a (i + 1) := by
  induction j generalizing data with
  | zero =>
    refine ⟨Within.refl _ _ _, ?_⟩
    intro p q hp hpq hq
    exact inv p q hp hpq (by omega) (by omega)
  | succ j ih =>
    unfold insertionInner
    split
    · rename_i hc
      obtain ⟨hgt, hless⟩ := hc
      have hj1 : j + 1 < data.length := by omega
      have hj0 : j < data.length := by omega
      have hw : Within a (i + 1) data (Swap data (j + 1) j) :=
        Within_Swap a (i + 1) data (j + 1) j (by omega) (by omega) (by omega) (by omega)
          (by omega)
      have hrec := ih (Swap data (j + 1) j) (by omega) (by omega)
        (by rw [length_Swap]; exact hi) (by
          intro p q hp hpq hq hne
          rw [elem_Swap data (j + 1) j p hj1 hj0, elem_Swap data (j + 1) j q hj1 hj0]
          by_cases hpj : p = j
          · rw [if_pos hpj]
            by_cases hqj1 : q = j + 1
            · rw [if_neg (by omega), if_pos hqj1]
              exact hless
            · rw [if_neg (by omega), if_neg hqj1]
              exact inv (j + 1) q (by omega) (by omega) hq (by omega)
          · rw [if_neg hpj]
            by_cases hpj1 : p = j + 1
            · rw [if_pos hpj1, if_neg (by omega), if_neg (by omega)]
              exact inv j q (by omega) (by omega) hq (by omega)
            · rw [if_neg hpj1, if_neg (by omega)]
              by_cases hqj1 : q = j + 1
              · rw [if_pos hqj1]
                exact inv p j hp (by omega) (by omega) (by omega)
              · rw [if_neg hqj1]
                exact inv p q hp hpq hq (by omega))
      exact ⟨hw.trans hrec.1, hrec.2⟩
    · rename_i hc
      refine ⟨Within.refl _ _ _, ?_⟩
      intro p q hp hpq hq
      by_cases hqj : q = j + 1
      · subst hqj
        have hja : j + 1 > a := by omega
        have hl : less (elem data j) (elem data (j + 1)) = true := by
          rcases htot (elem data j) (elem data (j + 1)) with h | h
          · exact h
          · exact absurd ⟨hja, h⟩ hc
        by_cases hpj : p = j
        · subst hpj; exact hl
        · exact htr _ _ _ (inv p j hp (by omega) (by omega) (by omega)) hl
      · exact inv p q hp hpq (by omega) hqj

theorem insertionOuter_sorted (less : α → α → Bool)
    (htot : ∀ x y, less x y = true ∨ less y x = true)
    (htr : ∀ x y z, less x y = true → less y z = true → less x z = true)
    (a b n i : Nat) (data : List α) (hai : a < i) (hn : b ≤ i + n) (hb : b ≤ data.length)
    (hib : i ≤ b) (hs : SortedOn less data a i) :
    Within a b data (insertionOuter less a b n i data) ∧
      SortedOn less (insertionOuter less a b n i data) a b := by
  induction n generalizing i data with
  | zero =>
    have : i = b := by omega
    subst this
    exact ⟨Within.refl _ _ _, hs⟩
  | succ n ih =>
    unfold insertionOuter
    split
    · rename_i hlt
      have h1 := insertionInner_sorted less htot htr a i i data (by omega) (le_refl _)
        (by omega) (by
          intro p q hp hpq hq hne
          exact hs p q hp hpq (by omega))
      have h2 := ih (i + 1) (insertionInner less a i data) (by omega) (by omega)
        (by rw [h1.1.1]; exact hb) (by omega) h1.2
      exact ⟨(h1.1.mono (le_refl _) (by omega)).trans h2.1, h2.2⟩
    · have : i = b := by omega
      subst this
      exact ⟨Within.refl _ _ _, hs⟩

theorem insertionSort_sorted (less : α → α → Bool)
    (htot : ∀ x y, less x y = true ∨ less y x = true)
    (htr : ∀ x y z, less x y = true → less y z = true → less x z = true)
    (data : List α) (a b : Nat) (hab : a < b) (hb : b ≤ data.length) :
    Within a b data (insertionSort_func less data a b) ∧
      SortedOn less (insertionSort_func less data a b) a b := by
  unfold insertionSort_func
  apply insertionOuter_sorted less htot htr a b _ _ data (by omega) (by omega) hb (by omega)
  intro p q hp hpq hq
  omega

theorem shellPass_within (less : α → α → Bool) (a b n i : Nat) (data : List α)
    (hai : a + 6 ≤ i) (hb : b ≤ data.length) :
    Within a b data (shellPass less b n i data) := by
  induction n generalizing i data with
  | zero => exact Within.refl _ _ _
  | succ n ih =>
    unfold shellPass
    split
    · split
      · have hw := Within_Swap a b data i (i - 6) (by omega) (by omega) (by omega) (by omega) hb
        exact hw.trans (ih (i + 1) _ (by omega) (by rw [length_Swap]; exact hb))
      · exact ih (i + 1) _ (by omega) hb
    · exact Within.refl _ _ _

theorem smallSort_sorted (less : α → α → Bool)
    (htot : ∀ x y, less x y = true ∨ less y x = true)
    (htr : ∀ x y z, less x y = true → less y z = true → less x z = true)
    (data : List α) (a b : Nat) (hb : b ≤ data.length) :
    Within a b data (smallSort less data a b) ∧ SortedOn less (smallSort less data a b) a b := by
  unfold smallSort
  split
  · have h1 := shellPass_within less a b (b - (a + 6)) (a + 6) data (le_refl _) hb
    have h2 := insertionSort_sorted less htot htr
      (shellPass less b (b - (a + 6)) (a + 6) data) a b (by omega) (by rw [h1.1]; exact hb)
    exact ⟨h1.trans h2.1, h2.2⟩
  · refine ⟨Within.refl _ _ _, ?_⟩
    intro p q hp hpq hq
    omega

theorem siftDown_heap (less : α → α → Bool)
    (htot : ∀ x y, less x y = true ∨ less y x = true)
    (htr : ∀ x y z, less x y = true → less y z = true → less x z = true)
    (first lo hi n root : Nat) (data : List α) (hlo : lo ≤ root) (hn : hi ≤ 2 * root + 1 + n)
    (hlen : first + hi ≤ data.length) (hpre : HeapExcept less first lo hi root data) :
    Within (first + lo) (first + hi) data (siftDown_func less hi first n root data) ∧
      HeapFrom less first lo hi (siftDown_func less hi first n root data) := by
  induction n generalizing root data with
  | zero =>
    refine ⟨Within.refl _ _ _, ?_⟩
    intro r c hr hc hrc
    by_cases hroot : r = root
    · omega
    · exact hpre.1 r c hr hroot hc hrc
  | succ n ih =>
    unfold siftDown_func
    simp only
    by_cases hleaf : 2 * root + 1 ≥ hi
    · rw [if_pos hleaf]
      refine ⟨Within.refl _ _ _, ?_⟩
      intro r c hr hc hrc
      by_cases hroot : r = root
      · omega
      · exact hpre.1 r c hr hroot hc hrc
    · rw [if_neg hleaf]
      have hchoice : ∃ ch, (if 2 * root + 1 + 1 < hi ∧
            Less less data (first + (2 * root + 1)) (first + (2 * root + 1) + 1) = true
          then 2 * root + 1 + 1 else 2 * root + 1) = ch ∧
          (ch = 2 * root + 1 ∨ ch = 2 * root + 2) ∧ ch < hi ∧
          (∀ c, c < hi → (c = 2 * root + 1 ∨ c = 2 * root + 2) →
            less (elem data (first + c)) (elem data (first + ch)) = true) := by
        by_cases hc : 2 * root + 1 + 1 < hi ∧
            Less less data (first + (2 * root + 1)) (first + (2 * root + 1) + 1) = true
        · refine ⟨2 * root + 1 + 1, if_pos hc, Or.inr rfl, hc.1, ?_⟩
          intro c hc1 hc2
          rcases hc2 with rfl | rfl
          · exact hc.2
          · rcases htot (elem data (first + (2 * root + 2))) (elem data (first + (2 * root + 2)))
              with h | h <;> exact h
        · refine ⟨2 * root + 1, if_neg hc, Or.inl rfl, by omega, ?_⟩
          intro c hc1 hc2
          rcases hc2 with rfl | rfl
          · rcases htot (elem data (first + (2 * root + 1))) (elem data (first + (2 * root + 1)))
              with h | h <;> exact h
          · rcases htot (elem data (first + (2 * root + 1)))
              (elem data (first + (2 * root + 1) + 1)) with h | h
            · exact absurd ⟨hc1, h⟩ hc
            · exact h
      obtain ⟨ch, hch, hkind, hchlt, hmax⟩ := hchoice
      rw [hch]
      by_cases hstop : (!Less less data (first + root) (first + ch)) = true
      · rw [if_pos hstop]
        refine ⟨Within.refl _ _ _, ?_⟩
        intro r c hr hc hrc
        by_cases hroot : r = root
        · subst hroot
          have h1 : less (elem data (first + ch)) (elem data (first + r)) = true := by
            rcases htot (elem data (first + ch)) (elem data (first + r)) with h | h
            · exact h
            · simp [Less, h] at hstop
          exact htr _ _ _ (hmax c hc hrc) h1
        · exact hpre.1 r c hr hroot hc hrc
      · rw [if_neg hstop]
        have hless : less (elem data (first + root)) (elem data (first + ch)) = true := by
          simpa [Less] using hstop
        have hr1 : first + root < data.length := by omega
        have hc1 : first + ch < data.length := by omega
        have hw : Within (first + lo) (first + hi) data
            (Swap data (first + root) (first + ch)) :=
          Within_Swap _ _ data _ _ (by omega) (by omega) (by omega) (by omega) hlen
        have eroot : elem (Swap data (first + root) (first + ch)) (first + root) =
            elem data (first + ch) := elem_Swap_left data _ _ hr1 hc1
        have ech : elem (Swap data (first + root) (first + ch)) (first + ch) =
            elem data (first + root) := elem_Swap_right data _ _ hr1 hc1
        have eoth : ∀ k, k ≠ root → k ≠ ch →
            elem (Swap data (first + root) (first + ch)) (first + k) = elem data (first + k) :=
          fun k h1 h2 => elem_Swap_other data _ _ _ (by omega) (by omega)
        have hrec := ih ch (Swap data (first + root) (first + ch)) (by omega) (by omega)
          (by rw [length_Swap]; exact hlen) (by
            constructor
            · intro r c hr hrne hc hrc
              by_cases hroot : r = root
              · subst hroot
                rw [eroot]
                by_cases hcch : c = ch
                · subst hcch
                  rw [ech]
                  exact hless
                · rw [eoth c (by omega) hcch]
                  exact hmax c hc hrc
              · rw [eoth r hroot hrne]
                by_cases hcr : c = root
                · subst hcr
                  rw [eroot]
                  exact hpre.2 r ch hr (by omega) hchlt hkind
                · rw [eoth c hcr (by omega)]
                  exact hpre.1 r c hr hroot hc hrc
            · intro g c hg hgch hc hcc
              have hgroot : g = root := by omega
              subst hgroot
              rw [eroot, eoth c (by omega) (by omega)]
              exact hpre.1 ch c (by omega) (by omega) hc hcc)
        exact ⟨hw.trans hrec.1, hrec.2⟩

theorem less_refl {β : Type} (less : β → β → Bool)
    (htot : ∀ x y, less x y = true ∨ less y x = true) (x : β) : less x x = true := by
  rcases htot x x with h | h <;> exact h

theorem heapBuild_heap (less : α → α → Bool)
    (htot : ∀ x y, less x y = true ∨ less y x = true)
    (htr : ∀ x y z, less x y = true → less y z = true → less x z = true)
    (first hi k : Nat) (data : List α) (hlen : first + hi ≤ data.length)
    (hpre : HeapFrom less first k hi data) :
    Within first (first + hi) data (heapBuild less hi first k data) ∧
      HeapFrom less first 0 hi (heapBuild less hi first k data) := by
  induction k generalizing data with
  | zero => exact ⟨Within.refl _ _ _, hpre⟩
  | succ k ih =>
    unfold heapBuild
    have h1 := siftDown_heap less htot htr first k hi hi k data (le_refl _) (by omega) hlen
      ⟨fun r c hr hrne hc hrc => hpre r c (by omega) hc hrc,
       fun g c hg hgk hc hcc => by omega⟩
    have h2 := ih (siftDown_func less hi first hi k data) (by rw [h1.1.1]; exact hlen) h1.2
    exact ⟨(h1.1.mono (by omega) (le_refl _)).trans h2.1, h2.2⟩

theorem heap_root_max (less : α → α → Bool)
    (htot : ∀ x y, less x y = true ∨ less y x = true)
    (htr : ∀ x y z, less x y = true → less y z = true → less x z = true)
    (first hi : Nat) (d : List α) (hheap : HeapFrom less first 0 hi d) (c : Nat) (hc : c < hi) :
    less (elem d (first + c)) (elem d (first + 0)) = true := by
  induction c using Nat.strong_induction_on with
  | _ c ih =>
    by_cases h0 : c = 0
    · subst h0
      exact less_refl less htot _
    · have hp : (c - 1) / 2 < c := by omega
      have h1 := hheap ((c - 1) / 2) c (Nat.zero_le _) hc (by omega)
      exact htr _ _ _ h1 (ih ((c - 1) / 2) hp (by omega))

theorem heapPop_sorted (less : α → α → Bool)
    (htot : ∀ x y, less x y = true ∨ less y x = true)
    (htr : ∀ x y z, less x y = true → less y z = true → less x z = true)
    (first total k : Nat) (data : List α) (hk : k ≤ total) (hlen : first + total ≤ data.length)
    (hheap : HeapFrom less first 0 k data)
    (hsorted : SortedOn less data (first + k) (first + total))
    (hsplit : ∀ p q, p < k → k ≤ q → q < total →
      less (elem data (first + p)) (elem data (first + q)) = true) :
    Within first (first + total) data (heapPop less first k data) ∧
      SortedOn less (heapPop less first k data) first (first + total) := by
  induction k generalizing data with
  | zero => exact ⟨Within.refl _ _ _, by simpa using hsorted⟩
  | succ k ih =>
    unfold heapPop
    have h0 : first < data.length := by omega
    have hk1 : first + k < data.length := by omega
    have hw1 : Within first (first + (k + 1)) data (Swap data first (first + k)) :=
      Within_Swap _ _ data _ _ (le_refl _) (by omega) (by omega) (by omega) (by omega)
    have e0 : elem (Swap data first (first + k)) (first + 0) = elem data (first + k) :=
      elem_Swap_left data _ _ h0 hk1
    have ek : elem (Swap data first (first + k)) (first + k) = elem data (first + 0) :=
      elem_Swap_right data _ _ h0 hk1
    have eo : ∀ j, j ≠ 0 → j ≠ k →
        elem (Swap data first (first + k)) (first + j) = elem data (first + j) :=
      fun j h1 h2 => elem_Swap_other data _ _ _ (by omega) (by omega)
    have h1 := siftDown_heap less htot htr first 0 k k 0 (Swap data first (first + k))
      (le_refl _) (by omega) (by rw [length_Swap]; omega)
      ⟨fun r c hr hrne hc hrc => by
          rw [eo r hrne (by omega), eo c (by omega) (by omega)]
          exact hheap r c hr (by omega) hrc,
       fun g c hg hgk hc hcc => by omega⟩
    have hmax := heap_root_max less htot htr first (k + 1) data hheap
    -- every element below `k` after the step is one of the old heap elements
    have hold : ∀ p, p < k → ∃ p', p' < k + 1 ∧
        elem (siftDown_func less k first k 0 (Swap data first (first + k))) (first + p) =
          elem data (first + p') := by
      intro p hp
      obtain ⟨j, hj1, hj2, e⟩ := h1.1.2.2 (first + p) (by omega) (by omega)
      obtain ⟨j', hj1', hj2', e'⟩ := hw1.2.2 j (by omega) (by omega)
      exact ⟨j' - first, by omega, by rw [e, e']; congr 1; omega⟩
    have hkeep : ∀ q, k ≤ q →
        elem (siftDown_func less k first k 0 (Swap data first (first + k))) (first + q) =
          elem (Swap data first (first + k)) (first + q) :=
      fun q hq => h1.1.2.1 (first + q) (Or.inr (by omega))
    have h2 := ih (siftDown_func less k first k 0 (Swap data first (first + k))) (by omega)
      (by rw [h1.1.1, length_Swap]; exact hlen) h1.2
      (by
        intro i j hi hij hj
        obtain ⟨i', rfl⟩ : ∃ i', i = first + i' := ⟨i - first, by omega⟩
        obtain ⟨j', rfl⟩ : ∃ j', j = first + j' := ⟨j - first, by omega⟩
        rw [hkeep i' (by omega), hkeep j' (by omega), eo j' (by omega) (by omega)]
        by_cases hik : i' = k
        · subst hik
          rw [ek]
          exact hsplit 0 j' (by omega) (by omega) (by omega)
        · rw [eo i' (by omega) hik]
          exact hsorted (first + i') (first + j') (by omega) (by omega) (by omega))
      (by
        intro p q hp hq hqt
        obtain ⟨p', hp', e⟩ := hold p hp
        rw [e, hkeep q hq]
        by_cases hqk : q = k
        · subst hqk
          rw [ek]
          exact hmax p' hp'
        · rw [eo q (by omega) hqk]
          exact hsplit p' q hp' (by omega) hqt)
    refine ⟨?_, h2.2⟩
    exact ((hw1.mono (le_refl _) (by omega)).trans
      (h1.1.mono (by omega) (by omega))).trans h2.1

theorem heapSort_sorted (less : α → α → Bool)
    (htot : ∀ x y, less x y = true ∨ less y x = true)
    (htr : ∀ x y z, less x y = true → less y z = true → less x z = true)
    (data : List α) (a b : Nat) (hab : a ≤ b) (hb : b ≤ data.length) :
    Within a b data (heapSort_func less data a b) ∧
      SortedOn less (heapSort_func less data a b) a b := by
  unfold heapSort_func
  simp only
  have e : a + (b - a) = b := by omega
  have h1 := heapBuild_heap less htot htr a (b - a) ((b - a - 1) / 2 + 1) data (by omega)
    (fun r c hr hc hrc => by omega)
  have h2 := heapPop_sorted less htot htr a (b - a) (b - a)
    (heapBuild less (b - a) a ((b - a - 1) / 2 + 1) data) (le_refl _)
    (by rw [h1.1.1]; omega) h1.2 (fun i j hi hij hj => by omega)
    (fun p q hp hq hqt => by omega)
  rw [e] at h1 h2
  exact ⟨h1.1.trans h2.1, h2.2⟩

end SliceFacts1

theorem scanUp_spec (p : Nat → Bool) (c n i : Nat) (hn : c ≤ i + n) :
    i ≤ scanUp p c n i ∧ (i ≤ c → scanUp p c n i ≤ c) ∧
    (∀ k, i ≤ k → k < scanUp p c n i → p k = true) ∧
    (scanUp p c n i < c → p (scanUp p c n i) = false) := by
  induction n generalizing i with
  | zero =>
    refine ⟨le_refl _, fun h => h, fun k h1 h2 => ?_, fun h => ?_⟩
    · simp only [scanUp] at h2; omega
    · simp only [scanUp] at h; omega
  | succ n ih =>
    unfold scanUp
    split
    · rename_i hc
      obtain ⟨h1, h2, h3, h4⟩ := ih (i + 1) (by omega)
      refine ⟨by omega, fun _ => h2 (by omega), fun k hk1 hk2 => ?_, h4⟩
      by_cases hki : k = i
      · subst hki; exact hc.2
      · exact h3 k (by omega) hk2
    · rename_i hc
      refine ⟨le_refl _, fun h => h, fun k h1 h2 => by omega, fun h => ?_⟩
      cases hp : p i with
      | false => rfl
      | true => exact absurd ⟨h, hp⟩ hc

theorem scanDown_spec (p : Nat → Bool) (b n c : Nat) (hn : c ≤ b + n) :
    scanDown p b n c ≤ c ∧ (b ≤ c → b ≤ scanDown p b n c) ∧
    (∀ k, scanDown p b n c ≤ k → k < c → p k = true) ∧
    (b < scanDown p b n c → p (scanDown p b n c - 1) = false) := by
  induction n generalizing c with
  | zero =>
    refine ⟨le_refl _, fun h => h, fun k h1 h2 => ?_, fun h => ?_⟩
    · simp only [scanDown] at h1; omega
    · simp only [scanDown] at h; omega
  | succ n ih =>
    unfold scanDown
    split
    · rename_i hc
      obtain ⟨h1, h2, h3, h4⟩ := ih (c - 1) (by omega)
      refine ⟨by omega, fun _ => h2 (by omega), fun k hk1 hk2 => ?_, h4⟩
      by_cases hkc : k = c - 1
      · subst hkc; exact hc.2
      · exact h3 k hk1 (by omega)
    · rename_i hc
      refine ⟨le_refl _, fun h => h, fun k h1 h2 => by omega, fun h => ?_⟩
      cases hp : p (c - 1) with
      | false => rfl
      | true => exact absurd ⟨h, hp⟩ hc

section SliceFacts2

variable {α : Type} [Inhabited α]

theorem medianOfThree_within (less : α → α → Bool) (data : List α) (lo hi m1 m0 m2 : Nat)
    (h1 : lo ≤ m1 ∧ m1 < hi) (h0 : lo ≤ m0 ∧ m0 < hi) (h2 : lo ≤ m2 ∧ m2 < hi)
    (hlen : hi ≤ data.length) :
    Within lo hi data (medianOfThree_func less data m1 m0 m2) := by
  have step : ∀ (d : List α) (c : Bool) (i j : Nat), lo ≤ i ∧ i < hi → lo ≤ j ∧ j < hi →
      Within lo hi data d → Within lo hi data (if c = true then Swap d i j else d) := by
    intro d c i j hi' hj' hw
    split
    · exact hw.trans (Within_Swap lo hi d i j hi'.1 hi'.2 hj'.1 hj'.2 (by rw [hw.1]; exact hlen))
    · exact hw
  unfold medianOfThree_func
  simp only
  have hd1 : ∃ d1 : List α, (if Less less data m1 m0 = true then Swap data m1 m0 else data) = d1 ∧
      Within lo hi data d1 :=
    ⟨_, rfl, step data (Less less data m1 m0) m1 m0 h1 h0 (Within.refl _ _ _)⟩
  obtain ⟨d1, hd1, hw1⟩ := hd1
  rw [hd1]
  by_cases hc2 : Less less d1 m2 m1 = true
  · rw [if_pos hc2]
    exact step _ _ m1 m0 h1 h0 (step _ true m2 m1 h2 h1 hw1)
  · rw [if_neg hc2]
    exact hw1

theorem medianOfThree_order (less : α → α → Bool)
    (htot : ∀ x y, less x y = true ∨ less y x = true)
    (data : List α) (m1 m0 m2 : Nat) (h1 : m1 < data.length) (h0 : m0 < data.length)
    (h2 : m2 < data.length) (h10 : m1 ≠ m0) (h12 : m1 ≠ m2) (h02 : m0 ≠ m2) :
    less (elem (medianOfThree_func less data m1 m0 m2) m1)
      (elem (medianOfThree_func less data m1 m0 m2) m2) = true := by
  unfold medianOfThree_func
  simp only
  -- after the first step the element at `m0` is below the one at `m1`
  have hd1 : ∃ d1 : List α, (if Less less data m1 m0 = true then Swap data m1 m0 else data) = d1 ∧
      d1.length = data.length ∧ less (elem d1 m0) (elem d1 m1) = true := by
    by_cases hc : Less less data m1 m0 = true
    · refine ⟨_, if_pos hc, length_Swap _ _ _, ?_⟩
      rw [elem_Swap_left data m1 m0 h1 h0, elem_Swap_right data m1 m0 h1 h0]
      exact hc
    · refine ⟨_, if_neg hc, rfl, ?_⟩
      rcases htot (elem data m0) (elem data m1) with h | h
      · exact h
      · exact absurd h hc
  obtain ⟨d1, hd1, hlen1, hord1⟩ := hd1
  rw [hd1]
  have g1 : m1 < d1.length := by omega
  have g0 : m0 < d1.length := by omega
  have g2 : m2 < d1.length := by omega
  by_cases hc2 : Less less d1 m2 m1 = true
  · rw [if_pos hc2]
    have q1 : m1 < (Swap d1 m2 m1).length := by rw [length_Swap]; exact g1
    have q0 : m0 < (Swap d1 m2 m1).length := by rw [length_Swap]; exact g0
    by_cases hc3 : Less less (Swap d1 m2 m1) m1 m0 = true
    · rw [if_pos hc3, elem_Swap_left _ m1 m0 q1 q0,
        elem_Swap_other _ m1 m0 m2 (Ne.symm h12) (Ne.symm h02),
        elem_Swap_other d1 m2 m1 m0 (by omega) (by omega), elem_Swap_left d1 m2 m1 g2 g1]
      exact hord1
    · rw [if_neg hc3, elem_Swap_right d1 m2 m1 g2 g1, elem_Swap_left d1 m2 m1 g2 g1]
      exact hc2
  · rw [if_neg hc2]
    rcases htot (elem d1 m1) (elem d1 m2) with h | h
    · exact h
    · exact absurd h hc2

theorem partitionLoop_spec (less : α → α → Bool)
    (htot : ∀ x y, less x y = true ∨ less y x = true)
    (lo hi n : Nat) (data : List α) (b c : Nat) (hlen : hi ≤ data.length)
    (hb : lo + 1 ≤ b) (hbc : b ≤ c) (hc : c + 1 ≤ hi) (hn : c ≤ b + n)
    (hleft : ∀ k, lo + 1 ≤ k → k < b → less (elem data k) (elem data lo) = true)
    (hright : ∀ k, c ≤ k → k < hi → less (elem data lo) (elem data k) = true) :
    Within (lo + 1) (hi - 1) data (partitionLoop less lo n data b c).1 ∧
    (partitionLoop less lo n data b c).2.1 = (partitionLoop less lo n data b c).2.2 ∧
    b ≤ (partitionLoop less lo n data b c).2.1 ∧
    (partitionLoop less lo n data b c).2.2 ≤ c ∧
    (∀ k, lo + 1 ≤ k → k < (partitionLoop less lo n data b c).2.1 →
      less (elem (partitionLoop less lo n data b c).1 k)
        (elem (partitionLoop less lo n data b c).1 lo) = true) ∧
    (∀ k, (partitionLoop less lo n data b c).2.2 ≤ k → k < hi →
      less (elem (partitionLoop less lo n data b c).1 lo)
        (elem (partitionLoop less lo n data b c).1 k) = true) := by
  induction n generalizing data b c with
  | zero =>
    have : b = c := by omega
    subst this
    exact ⟨Within.refl _ _ _, rfl, le_refl _, le_refl _, hleft, hright⟩
  | succ n ih =>
    unfold partitionLoop
    simp only
    obtain ⟨u1, u2, u3, u4⟩ := scanUp_spec (fun i => !Less less data lo i) c (c - b) b (by omega)
    generalize scanUp (fun i => !Less less data lo i) c (c - b) b = b' at u1 u2 u3 u4 ⊢
    have u2' := u2 hbc
    obtain ⟨v1, v2, v3, v4⟩ := scanDown_spec (fun i => Less less data lo i) b' (c - b') c
      (by omega)
    generalize scanDown (fun i => Less less data lo i) b' (c - b') c = c' at v1 v2 v3 v4 ⊢
    have v2' := v2 u2'
    have hleft' : ∀ k, lo + 1 ≤ k → k < b' → less (elem data k) (elem data lo) = true := by
      intro k hk1 hk2
      by_cases hkb : k < b
      · exact hleft k hk1 hkb
      · have := u3 k (by omega) hk2
        rcases htot (elem data k) (elem data lo) with h | h
        · exact h
        · simp [Less, h] at this
    have hright' : ∀ k, c' ≤ k → k < hi → less (elem data lo) (elem data k) = true := by
      intro k hk1 hk2
      by_cases hkc : c ≤ k
      · exact hright k hkc hk2
      · exact v3 k hk1 (by omega)
    by_cases hstop : b' ≥ c'
    · rw [if_pos hstop]
      have : b' = c' := by omega
      subst this
      exact ⟨Within.refl _ _ _, rfl, u1, v1, hleft', hright'⟩
    · rw [if_neg hstop]
      have hb'c : b' < c := by omega
      have hlb : less (elem data lo) (elem data b') = true := by
        have := u4 hb'c
        simpa [Less] using this
      have hnc : less (elem data lo) (elem data (c' - 1)) = false := by
        have := v4 (by omega)
        simpa [Less] using this
      have hne : b' ≠ c' - 1 := by
        intro h
        rw [← h, hlb] at hnc
        cases hnc
      have hcb : less (elem data (c' - 1)) (elem data lo) = true := by
        rcases htot (elem data (c' - 1)) (elem data lo) with h | h
        · exact h
        · rw [h] at hnc; cases hnc
      have hb1 : b' < data.length := by omega
      have hc1 : c' - 1 < data.length := by omega
      have hw : Within (lo + 1) (hi - 1) data (Swap data b' (c' - 1)) :=
        Within_Swap _ _ data _ _ (by omega) (by omega) (by omega) (by omega) (by omega)
      have elo : elem (Swap data b' (c' - 1)) lo = elem data lo :=
        elem_Swap_other data _ _ _ (by omega) (by omega)
      have hrec := ih (Swap data b' (c' - 1)) (b' + 1) (c' - 1)
        (by rw [length_Swap]; exact hlen) (by omega) (by omega) (by omega) (by omega)
        (by
          intro k hk1 hk2
          rw [elo]
          by_cases hkb : k = b'
          · subst hkb
            rw [elem_Swap_left data _ _ hb1 hc1]
            exact hcb
          · rw [elem_Swap_other data _ _ _ hkb (by omega)]
            exact hleft' k hk1 (by omega))
        (by
          intro k hk1 hk2
          rw [elo]
          by_cases hkc : k = c' - 1
          · subst hkc
            rw [elem_Swap_right data _ _ hb1 hc1]
            exact hlb
          · rw [elem_Swap_other data _ _ _ (by omega) hkc]
            exact hright' k (by omega) hk2)
      obtain ⟨r1, r2, r3, r4, r5, r6⟩ := hrec
      exact ⟨hw.trans r1, r2, by omega, by omega, r5, r6⟩

theorem protectLoop_idle (less : α → α → Bool) (pivot n : Nat) (data : List α) (a b : Nat)
    (hab : a ≤ b)
    (hleft : ∀ k, a ≤ k → k < b → less (elem data k) (elem data pivot) = true) :
    (protectLoop less pivot n data a b).1 = data ∧ (protectLoop less pivot n data a b).2.2 = b := by
  cases n with
  | zero => exact ⟨rfl, rfl⟩
  | succ n =>
    unfold protectLoop
    simp only
    obtain ⟨v1, v2, v3, v4⟩ := scanDown_spec (fun i => !Less less data i pivot) a (b - a) b
      (by omega)
    have hb' : scanDown (fun i => !Less less data i pivot) a (b - a) b = b := by
      by_contra hne
      have hlt : scanDown (fun i => !Less less data i pivot) a (b - a) b < b := by omega
      have h1 := v3 (b - 1) (by omega) (by omega)
      have h2 := hleft (b - 1) (by have := v2 hab; omega) (by omega)
      simp [Less, h2] at h1
    rw [hb']
    obtain ⟨u1, u2, u3, u4⟩ := scanUp_spec (fun i => Less less data i pivot) b (b - a) a
      (by omega)
    have ha' : scanUp (fun i => Less less data i pivot) b (b - a) a = b := by
      by_contra hne
      have hlt : scanUp (fun i => Less less data i pivot) b (b - a) a < b := by
        have := u2 hab; omega
      have h1 : less (elem data _) (elem data pivot) = false := u4 hlt
      have h2 := hleft _ u1 hlt
      rw [h2] at h1
      cases h1
    rw [ha', if_pos (le_refl b)]
    exact ⟨rfl, rfl⟩

theorem dupsProbe_idle (less : α → α → Bool) (data : List α) (pivot m hi b c : Nat)
    (h1 : less (elem data pivot) (elem data (hi - 1)) = true)
    (h2 : less (elem data (b - 1)) (elem data pivot) = true)
    (h3 : less (elem data m) (elem data pivot) = true) :
    dupsProbe less data pivot m hi b c = (data, b, c, false) := by
  simp [dupsProbe, Less, h1, h2, h3]

theorem doPivot_spec (less : α → α → Bool)
    (htot : ∀ x y, less x y = true ∨ less y x = true)
    (data : List α) (lo hi : Nat) (hsize : hi - lo > 12) (hlen : hi ≤ data.length) :
    Within lo hi data (doPivot_func less data lo hi).1 ∧
    lo ≤ (doPivot_func less data lo hi).2.1 ∧
    (doPivot_func less data lo hi).2.2 = (doPivot_func less data lo hi).2.1 + 1 ∧
    (doPivot_func less data lo hi).2.2 < hi ∧
    (∀ k, lo ≤ k → k < (doPivot_func less data lo hi).2.1 →
      less (elem (doPivot_func less data lo hi).1 k)
        (elem (doPivot_func less data lo hi).1 (doPivot_func less data lo hi).2.1) = true) ∧
    (∀ k, (doPivot_func less data lo hi).2.2 ≤ k → k < hi →
      less (elem (doPivot_func less data lo hi).1 (doPivot_func less data lo hi).2.1)
        (elem (doPivot_func less data lo hi).1 k) = true) := by
  unfold doPivot_func
  simp only
  -- the medians
  have hd0 : ∃ d0 : List α, (if hi - lo > 40 then
      medianOfThree_func less (medianOfThree_func less (medianOfThree_func less data lo
        (lo + (hi - lo) / 8) (lo + 2 * ((hi - lo) / 8))) ((lo + hi) / 2)
        ((lo + hi) / 2 - (hi - lo) / 8) ((lo + hi) / 2 + (hi - lo) / 8)) (hi - 1)
        (hi - 1 - (hi - lo) / 8) (hi - 1 - 2 * ((hi - lo) / 8))
      else data) = d0 ∧ Within lo hi data d0 := by
    refine ⟨_, rfl, ?_⟩
    split
    · have w1 := medianOfThree_within less data lo hi lo (lo + (hi - lo) / 8)
        (lo + 2 * ((hi - lo) / 8)) (by omega) (by omega) (by omega) hlen
      have w2 := medianOfThree_within less _ lo hi ((lo + hi) / 2)
        ((lo + hi) / 2 - (hi - lo) / 8) ((lo + hi) / 2 + (hi - lo) / 8)
        (by omega) (by omega) (by omega) (by rw [w1.1]; exact hlen)
      have w3 := medianOfThree_within less _ lo hi (hi - 1)
        (hi - 1 - (hi - lo) / 8) (hi - 1 - 2 * ((hi - lo) / 8))
        (by omega) (by omega) (by omega) (by rw [w2.1, w1.1]; exact hlen)
      exact (w1.trans w2).trans w3
    · exact Within.refl _ _ _
  obtain ⟨d0, hd0, hw0⟩ := hd0
  rw [hd0]
  have hlen0 : hi ≤ d0.length := by rw [hw0.1]; exact hlen
  have hw1 := medianOfThree_within less d0 lo hi lo ((lo + hi) / 2) (hi - 1)
    (by omega) (by omega) (by omega) hlen0
  have hord := medianOfThree_order less htot d0 lo ((lo + hi) / 2) (hi - 1)
    (by omega) (by omega) (by omega) (by omega) (by omega) (by omega)
  generalize medianOfThree_func less d0 lo ((lo + hi) / 2) (hi - 1) = d1 at hw1 hord ⊢
  have hlen1 : hi ≤ d1.length := by rw [hw1.1]; exact hlen0
  have hwd1 : Within lo hi data d1 := hw0.trans hw1
  -- the first scan
  obtain ⟨u1, u2, u3, u4⟩ := scanUp_spec (fun i => Less less d1 i lo) (hi - 1)
    (hi - 1 - (lo + 1)) (lo + 1) (by omega)
  generalize scanUp (fun i => Less less d1 i lo) (hi - 1) (hi - 1 - (lo + 1)) (lo + 1) = a
    at u1 u2 u3 u4 ⊢
  have ha := u2 (by omega)
  -- the partition
  obtain ⟨p1, p2, p3, p4, p5, p6⟩ := partitionLoop_spec less htot lo hi (hi - 1 - a) d1 a
    (hi - 1) hlen1 u1 ha (by omega) (by omega) (fun k hk1 hk2 => u3 k hk1 hk2)
    (fun k hk1 hk2 => by
      have : k = hi - 1 := by omega
      subst this
      exact hord)
  generalize partitionLoop less lo (hi - 1 - a) d1 a (hi - 1) = r at p1 p2 p3 p4 p5 p6 ⊢
  obtain ⟨d2, b, c⟩ := r
  simp only at p1 p2 p3 p4 p5 p6 ⊢
  subst p2
  have hlen2 : hi ≤ d2.length := by rw [p1.1]; exact hlen1
  have hrefl : less (elem d2 lo) (elem d2 lo) = true := less_refl less htot _
  have hleft : ∀ k, lo ≤ k → k < b → less (elem d2 k) (elem d2 lo) = true := by
    intro k hk1 hk2
    by_cases hk : k = lo
    · subst hk; exact hrefl
    · exact p5 k (by omega) hk2
  -- the probes change nothing
  have hprobe : (if (!decide (hi - b < 5)) = true ∧ hi - b < (hi - lo) / 4 then
      dupsProbe less d2 lo ((lo + hi) / 2) hi b b else (d2, b, b, decide (hi - b < 5))) =
      (d2, b, b, if (!decide (hi - b < 5)) = true ∧ hi - b < (hi - lo) / 4 then false
        else decide (hi - b < 5)) := by
    split
    · rename_i hc
      exact dupsProbe_idle less d2 lo ((lo + hi) / 2) hi b b (p6 (hi - 1) (by omega) (by omega))
        (hleft (b - 1) (by omega) (by omega)) (hleft ((lo + hi) / 2) (by omega) (by omega))
    · rfl
  rw [hprobe]
  simp only
  -- the protection loop changes nothing
  have hprot : ∀ flag : Bool, (if flag = true then protectLoop less lo (b - a) d2 a b
      else (d2, a, b)).1 = d2 ∧ (if flag = true then protectLoop less lo (b - a) d2 a b
      else (d2, a, b)).2.2 = b := by
    intro flag
    split
    · exact protectLoop_idle less lo (b - a) d2 a b p3
        (fun k hk1 hk2 => p5 k (by omega) hk2)
    · exact ⟨rfl, rfl⟩
  generalize (if (!decide (hi - b < 5)) = true ∧ hi - b < (hi - lo) / 4 then false
        else decide (hi - b < 5)) = flag
  rw [(hprot flag).1, (hprot flag).2]
  -- the final swap
  have hl0 : lo < d2.length := by omega
  have hb1 : b - 1 < d2.length := by omega
  have hws : Within lo hi d2 (Swap d2 lo (b - 1)) :=
    Within_Swap lo hi d2 lo (b - 1) (le_refl _) (by omega) (by omega) (by omega) hlen2
  refine ⟨(hwd1.trans (p1.mono (by omega) (by omega))).trans hws, by omega, by omega, by omega,
    ?_, ?_⟩
  · intro k hk1 hk2
    rw [elem_Swap_right d2 lo (b - 1) hl0 hb1]
    by_cases hk : k = lo
    · subst hk
      rw [elem_Swap_left d2 k (b - 1) hl0 hb1]
      exact hleft (b - 1) (by omega) (by omega)
    · rw [elem_Swap_other d2 lo (b - 1) k hk (by omega)]
      exact hleft k hk1 (by omega)
  · intro k hk1 hk2
    rw [elem_Swap_right d2 lo (b - 1) hl0 hb1, elem_Swap_other d2 lo (b - 1) k (by omega) (by omega)]
    exact p6 k hk1 hk2

/-- Sorting the two sides of a partitioned range, left side first, sorts the range. -/
theorem quick_combine (less : α → α → Bool)
    (htr : ∀ x y z, less x y = true → less y z = true → less x z = true)
    (d1 d2 d3 : List α) (a mlo b : Nat) (hm : a ≤ mlo) (hmb : mlo < b)
    (hleft : ∀ k, a ≤ k → k < mlo → less (elem d1 k) (elem d1 mlo) = true)
    (hright : ∀ k, mlo + 1 ≤ k → k < b → less (elem d1 mlo) (elem d1 k) = true)
    (hw1 : Within a mlo d1 d2) (hs1 : SortedOn less d2 a mlo)
    (hw2 : Within (mlo + 1) b d2 d3) (hs2 : SortedOn less d3 (mlo + 1) b) :
    Within a b d1 d3 ∧ SortedOn less d3 a b := by
  refine ⟨(hw1.mono (le_refl _) (by omega)).trans (hw2.mono (by omega) (le_refl _)), ?_⟩
  have emid : elem d3 mlo = elem d1 mlo := by
    rw [hw2.2.1 mlo (Or.inl (by omega)), hw1.2.1 mlo (Or.inr (le_refl _))]
  have hl : ∀ k, a ≤ k → k < mlo → less (elem d3 k) (elem d1 mlo) = true := by
    intro k hk1 hk2
    rw [hw2.2.1 k (Or.inl (by omega))]
    obtain ⟨k', h1, h2, e⟩ := hw1.2.2 k hk1 hk2
    rw [e]
    exact hleft k' h1 h2
  have hr : ∀ k, mlo + 1 ≤ k → k < b → less (elem d1 mlo) (elem d3 k) = true := by
    intro k hk1 hk2
    obtain ⟨k', h1, h2, e⟩ := hw2.2.2 k hk1 hk2
    rw [e, hw1.2.1 k' (Or.inr (by omega))]
    exact hright k' h1 h2
  intro i j hi hij hj
  by_cases hjm : j < mlo
  · rw [hw2.2.1 i (Or.inl (by omega)), hw2.2.1 j (Or.inl (by omega))]
    exact hs1 i j hi hij hjm
  · by_cases him : mlo < i
    · exact hs2 i j (by omega) hij hj
    · by_cases hje : j = mlo
      · subst hje
        rw [emid]
        exact hl i hi (by omega)
      · by_cases hie : i = mlo
        · subst hie
          rw [emid]
          exact hr j (by omega) hj
        · exact htr _ _ _ (hl i hi (by omega)) (hr j (by omega) hj)

/-- Sorting the two sides of a partitioned range, right side first, sorts the range. -/
theorem quick_combine_right (less : α → α → Bool)
    (htr : ∀ x y z, less x y = true → less y z = true → less x z = true)
    (d1 d2 d3 : List α) (a mlo b : Nat) (hm : a ≤ mlo) (hmb : mlo < b)
    (hleft : ∀ k, a ≤ k → k < mlo → less (elem d1 k) (elem d1 mlo) = true)
    (hright : ∀ k, mlo + 1 ≤ k → k < b → less (elem d1 mlo) (elem d1 k) = true)
    (hw1 : Within (mlo + 1) b d1 d2) (hs1 : SortedOn less d2 (mlo + 1) b)
    (hw2 : Within a mlo d2 d3) (hs2 : SortedOn less d3 a mlo) :
    Within a b d1 d3 ∧ SortedOn less d3 a b := by
  refine ⟨(hw1.mono (by omega) (le_refl _)).trans (hw2.mono (le_refl _) (by omega)), ?_⟩
  have emid : elem d3 mlo = elem d1 mlo := by
    rw [hw2.2.1 mlo (Or.inr (le_refl _)), hw1.2.1 mlo (Or.inl (by omega))]
  have hl : ∀ k, a ≤ k → k < mlo → less (elem d3 k) (elem d1 mlo) = true := by
    intro k hk1 hk2
    obtain ⟨k', h1, h2, e⟩ := hw2.2.2 k hk1 hk2
    rw [e, hw1.2.1 k' (Or.inl (by omega))]
    exact hleft k' h1 h2
  have hr : ∀ k, mlo + 1 ≤ k → k < b → less (elem d1 mlo) (elem d3 k) = true := by
    intro k hk1 hk2
    rw [hw2.2.1 k (Or.inr (by omega))]
    obtain ⟨k', h1, h2, e⟩ := hw1.2.2 k hk1 hk2
    rw [e]
    exact hright k' h1 h2
  intro i j hi hij hj
  by_cases hjm : j < mlo
  · exact hs2 i j hi hij hjm
  · by_cases him : mlo < i
    · rw [hw2.2.1 i (Or.inr (by omega)), hw2.2.1 j (Or.inr (by omega))]
      exact hs1 i j (by omega) hij hj
    · by_cases hje : j = mlo
      · subst hje
        rw [emid]
        exact hl i hi (by omega)
      · by_cases hie : i = mlo
        · subst hie
          rw [emid]
          exact hr j (by omega) hj
        · exact htr _ _ _ (hl i hi (by omega)) (hr j (by omega) hj)

theorem quickSort_sorted (less : α → α → Bool)
    (htot : ∀ x y, less x y = true ∨ less y x = true)
    (htr : ∀ x y z, less x y = true → less y z = true → less x z = true)
    (fuel : Nat) (data : List α) (a b maxDepth : Nat) (hb : b ≤ data.length) :
    Within a b data (quickSort_func less fuel data a b maxDepth) ∧
      SortedOn less (quickSort_func less fuel data a b maxDepth) a b := by
  induction fuel generalizing data a b maxDepth with
  | zero => exact smallSort_sorted less htot htr data a b hb
  | succ fuel ih =>
    unfold quickSort_func
    by_cases hsize : b - a > 12
    · rw [if_pos hsize]
      by_cases hdepth : maxDepth = 0
      · rw [if_pos hdepth]
        exact heapSort_sorted less htot htr data a b (by omega) hb
      · rw [if_neg hdepth]
        simp only
        obtain ⟨p1, p2, p3, p4, p5, p6⟩ := doPivot_spec less htot data a b hsize hb
        generalize doPivot_func less data a b = r at p1 p2 p3 p4 p5 p6 ⊢
        obtain ⟨d1, mlo, mhi⟩ := r
        simp only at p1 p2 p3 p4 p5 p6 ⊢
        subst p3
        have hlen1 : b ≤ d1.length := by rw [p1.1]; exact hb
        split
        · have q1 := ih d1 a mlo (maxDepth - 1) (by omega)
          have q2 := ih (quickSort_func less fuel d1 a mlo (maxDepth - 1)) (mlo + 1) b
            (maxDepth - 1) (by rw [q1.1.1]; exact hlen1)
          have q3 := quick_combine less htr d1 _ _ a mlo b p2 (by omega) p5 p6 q1.1 q1.2 q2.1 q2.2
          exact ⟨p1.trans q3.1, q3.2⟩
        · have q1 := ih d1 (mlo + 1) b (maxDepth - 1) hlen1
          have q2 := ih (quickSort_func less fuel d1 (mlo + 1) b (maxDepth - 1)) a mlo
            (maxDepth - 1) (by rw [q1.1.1]; omega)
          have q3 := quick_combine_right less htr d1 _ _ a mlo b p2 (by omega) p5 p6 q1.1 q1.2
            q2.1 q2.2
          exact ⟨p1.trans q3.1, q3.2⟩
    · rw [if_neg hsize]
      exact smallSort_sorted less htot htr data a b hb

/-- With a total and transitive `less`, the range handed to `quickSort_func` never
exceeds the counter: one more unit of fuel does not change the result. -/
theorem quickSort_fuel (less : α → α → Bool)
    (htot : ∀ x y, less x y = true ∨ less y x = true)
    (htr : ∀ x y z, less x y = true → less y z = true → less x z = true)
    (fuel : Nat) (data : List α) (a b maxDepth : Nat) (hb : b ≤ data.length)
    (hfuel : b - a ≤ fuel) :
    quickSort_func less (fuel + 1) data a b maxDepth =
      quickSort_func less fuel data a b maxDepth := by
  induction fuel generalizing data a b maxDepth with
  | zero =>
    have hsize : ¬ b - a > 12 := by omega
    simp only [quickSort_func, hsize, if_false]
  | succ fuel ih =>
    rw [quickSort_func]
    conv => rhs; rw [quickSort_func]
    by_cases hsize : b - a > 12
    · rw [if_pos hsize, if_pos hsize]
      by_cases hdepth : maxDepth = 0
      · rw [if_pos hdepth, if_pos hdepth]
      · rw [if_neg hdepth, if_neg hdepth]
        simp only
        obtain ⟨p1, p2, p3, p4, p5, p6⟩ := doPivot_spec less htot data a b hsize hb
        generalize doPivot_func less data a b = r at p1 p2 p3 p4 p5 p6 ⊢
        obtain ⟨d1, mlo, mhi⟩ := r
        simp only at p1 p2 p3 p4 p5 p6 ⊢
        subst p3
        have hlen1 : b ≤ d1.length := by rw [p1.1]; exact hb
        have e1 : ∀ md, quickSort_func less (fuel + 1) d1 a mlo md =
            quickSort_func less fuel d1 a mlo md :=
          fun md => ih d1 a mlo md (by omega) (by omega)
        have e2 : ∀ md, quickSort_func less (fuel + 1) d1 (mlo + 1) b md =
            quickSort_func less fuel d1 (mlo + 1) b md :=
          fun md => ih d1 (mlo + 1) b md hlen1 (by omega)
        split
        · rw [e1]
          have q1 := quickSort_sorted less htot htr fuel d1 a mlo (maxDepth - 1) (by omega)
          exact ih _ (mlo + 1) b _ (by rw [q1.1.1]; exact hlen1) (by omega)
        · rw [e2]
          have q1 := quickSort_sorted less htot htr fuel d1 (mlo + 1) b (maxDepth - 1) hlen1
          exact ih _ a mlo _ (by rw [q1.1.1]; omega) (by omega)
    · rw [if_neg hsize, if_neg hsize]

theorem sortSlice_sorted (less : α → α → Bool)
    (htot : ∀ x y, less x y = true ∨ less y x = true)
    (htr : ∀ x y z, less x y = true → less y z = true → less x z = true)
    (data : List α) :
    SortedOn less (sortSlice less data) 0 data.length :=
  (quickSort_sorted less htot htr _ data 0 data.length _ (le_refl _)).2

theorem sortSlice_length (less : α → α → Bool) (data : List α) :
    (sortSlice less data).length = data.length :=
  (sortSlice_perm less data).length_eq

end SliceFacts2

theorem bitCount_fuel (fuel i : Nat) (h : i ≤ fuel) : bitCount (fuel + 1) i = bitCount fuel i := by
  induction fuel generalizing i with
  | zero =>
    have : i = 0 := by omega
    subst this
    simp [bitCount]
  | succ fuel ih =>
    rw [bitCount]
    conv => rhs; rw [bitCount]
    split
    · rw [ih (i / 2) (by omega)]
    · rfl

theorem lessCreatedAt_total (x y : event) :
    lessCreatedAt x y = true ∨ lessCreatedAt y x = true := by
  simp only [lessCreatedAt, Time.After, Bool.not_eq_true', Bool.or_eq_false_iff,
    Bool.and_eq_false_imp, decide_eq_false_iff_not, decide_eq_true_eq]
  omega

theorem lessCreatedAt_trans (x y z : event) (h1 : lessCreatedAt x y = true)
    (h2 : lessCreatedAt y z = true) : lessCreatedAt x z = true := by
  simp only [lessCreatedAt, Time.After, Bool.not_eq_true', Bool.or_eq_false_iff,
    Bool.and_eq_false_imp, decide_eq_false_iff_not, decide_eq_true_eq] at h1 h2 ⊢
  omega

theorem timeline_perm (commits issues : List event) :
    (timeline commits issues).Perm (commits ++ issues) := by
  have := sortSlice_perm lessCreatedAt (([] ++ commits) ++ issues)
  simpa [timeline] using this

theorem timeline_pairwise (commits issues : List event) :
    List.Pairwise (fun x y => x.createdAt.After y.createdAt = false)
      (timeline commits issues) := by
  rw [List.pairwise_iff_getElem]
  intro i j hi hj hij
  have hs := sortSlice_sorted lessCreatedAt lessCreatedAt_total lessCreatedAt_trans
    (([] ++ commits) ++ issues)
  have hlen := sortSlice_length lessCreatedAt (([] ++ commits) ++ issues)
  have h : lessCreatedAt (elem (timeline commits issues) i)
      (elem (timeline commits issues) j) = true :=
    hs i j (Nat.zero_le _) hij (by rw [← hlen]; exact hj)
  rw [elem_eq_getElem _ i hi, elem_eq_getElem _ j hj] at h
  simpa [lessCreatedAt] using h

theorem run_ok (api : Api) (commits issues : List event)
    (hc : getCommitEvents api.commits = .ok commits)
    (hi : getIssueEvents api.issues = .ok issues) :
    run api = ⟨[.listCommits, .listIssues] ++
      (timeline commits issues).map (fun e => Effect.println (printEvent e)), .ok ()⟩ := by
  simp [run, hc, hi]

/-- C1. When both fetches succeed, `run` prints the events of the sorted slice, which is
in non-decreasing order of `createdAt`: of two adjacent printed events the first one's
`createdAt` is not after the second one's. -/
theorem run_prints_sorted (api : Api) (commits issues : List event)
    (hc : getCommitEvents api.commits = .ok commits)
    (hi : getIssueEvents api.issues = .ok issues) :
    (run api).trace = [.listCommits, .listIssues] ++
      (timeline commits issues).map (fun e => Effect.println (printEvent e)) ∧
    ∀ (k : Nat) (e1 e2 : event), (timeline commits issues)[k]? = some e1 →
      (timeline commits issues)[k + 1]? = some e2 →
      e1.createdAt.After e2.createdAt = false := by
  refine ⟨by rw [run_ok api commits issues hc hi], ?_⟩
  intro k e1 e2 h1 h2
  have hp := timeline_pairwise commits issues
  rw [List.pairwise_iff_getElem] at hp
  obtain ⟨hk1, rfl⟩ := List.getElem?_eq_some_iff.mp h1
  obtain ⟨hk2, rfl⟩ := List.getElem?_eq_some_iff.mp h2
  exact hp k (k + 1) hk1 hk2 (by omega)

theorem run_prints_sorted_witness :
    (run ⟨oneCommit, oneIssue⟩).trace = [.listCommits, .listIssues] ++
      (timeline sampleCommitList sampleIssueList).map
        (fun e => Effect.println (printEvent e)) ∧
    ∀ (k : Nat) (e1 e2 : event), (timeline sampleCommitList sampleIssueList)[k]? = some e1 →
      (timeline sampleCommitList sampleIssueList)[k + 1]? = some e2 →
      e1.createdAt.After e2.createdAt = false :=
  run_prints_sorted ⟨oneCommit, oneIssue⟩ sampleCommitList sampleIssueList rfl rfl

/-- C3. When both fetches succeed, `run` prints the events of the sorted slice, one line
per event and nothing else, and returns without error; the sorted slice is a permutation
of `commits ++ issues`, so every fetched event is printed exactly once; with two empty
lists nothing is printed. -/
theorem run_prints_all (api : Api) (commits issues : List event)
    (hc : getCommitEvents api.commits = .ok commits)
    (hi : getIssueEvents api.issues = .ok issues) :
    (run api).trace = [.listCommits, .listIssues] ++
      (timeline commits issues).map (fun e => Effect.println (printEvent e)) ∧
    (timeline commits issues).Perm (commits ++ issues) ∧
    (run api).result = .ok () ∧
    (commits = [] → issues = [] → (run api).trace = [.listCommits, .listIssues]) := by
  refine ⟨by rw [run_ok api commits issues hc hi], timeline_perm commits issues,
    by rw [run_ok api commits issues hc hi], ?_⟩
  intro h1 h2
  subst h1 h2
  rw [run_ok api [] [] hc hi]
  have := (timeline_perm [] []).length_eq
  have h0 : timeline [] [] = [] := List.length_eq_zero.mp (by simpa using this)
  simp [h0]

theorem run_prints_all_witness :
    (run ⟨oneCommit, oneIssue⟩).trace = [.listCommits, .listIssues] ++
      (timeline sampleCommitList sampleIssueList).map
        (fun e => Effect.println (printEvent e)) ∧
    (timeline sampleCommitList sampleIssueList).Perm (sampleCommitList ++ sampleIssueList) ∧
    (run ⟨oneCommit, oneIssue⟩).result = .ok () ∧
    (sampleCommitList = [] → sampleIssueList = [] →
      (run ⟨oneCommit, oneIssue⟩).trace = [.listCommits, .listIssues]) :=
  run_prints_all ⟨oneCommit, oneIssue⟩ sampleCommitList sampleIssueList rfl rfl

set_option maxRecDepth 100000 in
/-- C2, as stated, fails: a commit and an issue with the same `createdAt` are printed
issue first, although the commit precedes the issue in the concatenation. -/
theorem sort_not_stable :
    tieCommit.createdAt = sampleIssue.createdAt ∧
    getCommitEvents tieApi.commits = .ok [tieCommit] ∧
    getIssueEvents tieApi.issues = .ok [sampleIssue] ∧
    timeline [tieCommit] [sampleIssue] = [sampleIssue, tieCommit] ∧
    (run tieApi).trace = [.listCommits, .listIssues, .println (printEvent sampleIssue),
      .println (printEvent tieCommit)] := by
  decide

/-- C2, amended. The sort in `run` orders by `createdAt` alone and is not stable: of any
two printed events the one printed first has a `createdAt` that is not after the other's,
and events with equal `createdAt` need not keep the order of the concatenation. With one
commit and one issue, the commit is printed first exactly when the issue's `createdAt`
is strictly later; at equal `createdAt` the issue is printed first. -/
theorem timeline_order (commits issues : List event) (c i : event) :
    List.Pairwise (fun x y => x.createdAt.After y.createdAt = false)
      (timeline commits issues) ∧
    timeline [c] [i] = (if i.createdAt.After c.createdAt = true then [c, i] else [i, c]) := by
  refine ⟨timeline_pairwise commits issues, ?_⟩
  by_cases h : i.createdAt.After c.createdAt = true
  · simp [timeline, sortSlice, quickSort_func, smallSort, shellPass, insertionSort_func,
      insertionOuter, insertionInner, Less, Swap, elem, lessCreatedAt, h]
  · simp [timeline, sortSlice, quickSort_func, smallSort, shellPass, insertionSort_func,
      insertionOuter, insertionInner, Less, Swap, elem, lessCreatedAt, h]

end Ghtl
